import Mathlib

/-!
# Verification of the spotify-json core: scanner primitives and the object codec

This file embeds, in Lean 4, the core of the spotify-json C++ library:
the low-level scanner primitives (`peek`, `next`, `advance_past`,
`advance_past_string`, `advance_past_comma_separated`, ...), the object
codec (`object_t`), and the boost `optional_t` codec wrapper, and proves
the behavioural properties stated in the specification.

Modelling conventions:
* the input byte range of a `decode_context` is a `List Char` together
  with a cursor position `pos`; `remaining() = input.length - pos`,
  `offset(d) = pos + d` (the start of the range is index 0);
* decode failures (C++ `throw decode_exception(msg, offset)`) become
  `Except DecodeErr` results carrying the message and offset;
* the `encode_context` buffer is a `List Char`; encode failures carry
  only the message;
* loops whose termination relies on a caller-supplied parse callback
  (`advance_past_comma_separated`, `skip_value`) are modelled with
  explicit fuel, returning `none` when the fuel runs out: `none` models
  the nontermination the C++ documentation warns about.
-/

namespace SpotifyJson

/-- The null character, returned by `peek` when the context has ended. -/
def nullChar : Char := Char.ofNat 0

/-- Decode context (decode_context.hpp): an immutable byte range and a
mutable cursor.  The cursor is an index into `input`; nothing forces
`pos ≤ input.length`, mirroring the raw pointer in the C++ code. -/
structure DecCtx where
  input : List Char
  pos : Nat
deriving DecidableEq, Repr

/-- `decode_context::remaining() = end - position`. -/
def DecCtx.remaining (c : DecCtx) : Nat := c.input.length - c.pos

/-- A decode failure: human-readable message plus byte offset
(`decode_exception`). -/
structure DecodeErr where
  msg : String
  offset : Int
deriving DecidableEq, Repr

/-- `detail::fail(context, error, d)`: throw a `decode_exception` whose
offset is `context.offset(d) = position - begin + d`. -/
def decodeFail {α : Type} (c : DecCtx) (msg : String) (d : Int) : Except DecodeErr α :=
  .error ⟨msg, (c.pos : Int) + d⟩

/-- `detail::peek`: the character at the cursor, or `'\0'` if the
context has ended. -/
def peek (c : DecCtx) : Char :=
  if 0 < c.remaining then c.input.getD c.pos nullChar else nullChar

/-- `detail::next(context, error)`: `require_bytes<1>` (failing with
`error` at the current offset), then consume and return one byte. -/
def next (c : DecCtx) (msg : String) : Except DecodeErr (Char × DecCtx) :=
  if c.remaining < 1 then decodeFail c msg 0
  else .ok (c.input.getD c.pos nullChar, ⟨c.input, c.pos + 1⟩)

/-- Whitespace characters recognised by `skip_past_whitespace`:
space, tab, line feed, carriage return. -/
def isWsChar (ch : Char) : Bool :=
  ch = ' ' || ch = '\t' || ch = '\n' || ch = '\r'

/-- Length of the leading whitespace run of a character list. -/
def wsCount : List Char → Nat
  | [] => 0
  | ch :: rest => if isWsChar ch then wsCount rest + 1 else 0

/-- Modelled from the spec: `detail::skip_past_whitespace`
(skip_chars.hpp is not part of the provided sources).  Advances the
cursor while the current byte is one of space, tab, LF, CR; never
fails; stops at end of input. -/
def skipPastWhitespace (c : DecCtx) : DecCtx :=
  ⟨c.input, c.pos + wsCount (c.input.drop c.pos)⟩

/-- `detail::advance_past(context, character)`: consume one byte, fail
with "Unexpected input" (offset of that byte, i.e. `offset(-1)` after
the consume) if it is not `character`. -/
def advancePast (c : DecCtx) (ch : Char) : Except DecodeErr DecCtx :=
  match next c "Unexpected end of input" with
  | .error e => .error e
  | .ok (got, c1) => if got ≠ ch then decodeFail c1 "Unexpected input" (-1) else .ok c1

/-- `detail::advance_past_four(context, characters)`: require 4 bytes,
compare them with the first four characters of `s`, advance past them. -/
def advancePastFour (c : DecCtx) (s : List Char) : Except DecodeErr DecCtx :=
  if c.remaining < 4 then decodeFail c "Unexpected end of input" 0
  else if (c.input.drop c.pos).take 4 ≠ s.take 4 then decodeFail c "Unexpected input" 0
  else .ok ⟨c.input, c.pos + 4⟩

/-- Modelled from the spec: `char_traits<char>::is_hex_digit`
(char_traits.hpp is not part of the provided sources): the hex digits
`[0-9A-Fa-f]` (spec §4.1). -/
def isHexDigit (ch : Char) : Bool :=
  ('0' ≤ ch && ch ≤ '9') || ('A' ≤ ch && ch ≤ 'F') || ('a' ≤ ch && ch ≤ 'f')

/-- `detail::advance_past_string_escape_after_slash`: validate the byte
following a backslash inside a JSON string.  One of
`" \ / b f n r t` is accepted as-is; `u` must be followed by four hex
digits; anything else fails with "Invalid escape character" at the
offset of the offending byte. -/
def advancePastStringEscapeAfterSlash (c : DecCtx) : Except DecodeErr DecCtx :=
  match next c "Unterminated string" with
  | .error e => .error e
  | .ok (ch, c1) =>
    if ch = '"' || ch = '\\' || ch = '/' || ch = 'b' || ch = 'f' ||
        ch = 'n' || ch = 'r' || ch = 't' then .ok c1
    else if ch = 'u' then
      if c1.remaining < 4 then decodeFail c1 "\\u must be followed by 4 hex digits" 0
      else
        let h0 := isHexDigit (c1.input.getD c1.pos nullChar)
        let h1 := isHexDigit (c1.input.getD (c1.pos + 1) nullChar)
        let h2 := isHexDigit (c1.input.getD (c1.pos + 2) nullChar)
        let h3 := isHexDigit (c1.input.getD (c1.pos + 3) nullChar)
        let c5 : DecCtx := ⟨c1.input, c1.pos + 4⟩
        if h0 && h1 && h2 && h3 then .ok c5
        else decodeFail c5 "\\u must be followed by 4 hex digits" 0
    else decodeFail c1 "Invalid escape character" (-1)

theorem next_ok {c : DecCtx} {msg : String} {ch : Char} {c1 : DecCtx}
    (h : next c msg = .ok (ch, c1)) :
    c1.input = c.input ∧ c1.pos = c.pos + 1 ∧ c.pos < c.input.length ∧
      ch = c.input.getD c.pos nullChar := by
  unfold next at h
  split at h
  · exact absurd h (by simp [decodeFail])
  · rename_i hr
    have hp : c.pos < c.input.length := by
      unfold DecCtx.remaining at hr; omega
    injection h with h2
    injection h2 with ha hb
    rw [← hb]
    exact ⟨rfl, rfl, hp, ha.symm⟩

theorem escape_ok {c : DecCtx} {c2 : DecCtx}
    (h : advancePastStringEscapeAfterSlash c = .ok c2) :
    c2.input = c.input ∧ c.pos < c2.pos := by
  unfold advancePastStringEscapeAfterSlash at h
  cases hn : next c "Unterminated string" with
  | error e => rw [hn] at h; exact absurd h (by simp)
  | ok p =>
    obtain ⟨ch, c1⟩ := p
    obtain ⟨hi, hp, _, _⟩ := next_ok hn
    rw [hn] at h
    simp only at h
    split at h
    · obtain rfl : c1 = c2 := by simpa using h
      exact ⟨hi, by omega⟩
    · split at h
      · split at h
        · simp [decodeFail] at h
        · split at h
          · obtain rfl : (⟨c1.input, c1.pos + 4⟩ : DecCtx) = c2 := by simpa using h
            refine ⟨hi, ?_⟩
            show c.pos < c1.pos + 4
            omega
          · simp [decodeFail] at h
      · simp [decodeFail] at h

/-- The loop body of `detail::advance_past_string`: repeatedly consume
bytes; an unescaped `"` terminates; a `\` delegates to the escape
handler; end of input fails with "Unterminated string". -/
def advancePastStringBody (c : DecCtx) : Except DecodeErr DecCtx :=
  match h : next c "Unterminated string" with
  | .error e => .error e
  | .ok (ch, c1) =>
    if ch = '"' then .ok c1
    else if ch = '\\' then
      match h2 : advancePastStringEscapeAfterSlash c1 with
      | .error e => .error e
      | .ok c2 => advancePastStringBody c2
    else advancePastStringBody c1
termination_by c.input.length - c.pos
decreasing_by
  · obtain ⟨hi, hp, hl, _⟩ := next_ok h
    obtain ⟨hi2, hp2⟩ := escape_ok h2
    rw [hi2, hi]
    omega
  · obtain ⟨hi, hp, hl, _⟩ := next_ok h
    rw [hi]
    omega

/-- `detail::advance_past_string`: consume a leading `"`, then the loop. -/
def advancePastString (c : DecCtx) : Except DecodeErr DecCtx :=
  match advancePast c '"' with
  | .error e => .error e
  | .ok c1 => advancePastStringBody c1

/-- The `while (peek(context) != outro)` loop of
`detail::advance_past_comma_separated`.  The parse callback returns
`none` to model nontermination; the loop itself consumes fuel, and
running out of fuel models the infinite loop the C++ documentation
warns about when the callback neither advances nor fails. -/
def commaSepLoop {σ : Type} (outro : Char)
    (parse : σ → DecCtx → Option (Except DecodeErr (σ × DecCtx))) :
    Nat → σ → DecCtx → Option (Except DecodeErr (σ × DecCtx))
  | 0, _, _ => none
  | fuel + 1, s, c =>
    if peek c = outro then some (.ok (s, c))
    else
      match advancePast c ',' with
      | .error e => some (.error e)
      | .ok c1 =>
        match parse s (skipPastWhitespace c1) with
        | none => none
        | some (.error e) => some (.error e)
        | some (.ok (s2, c2)) => commaSepLoop outro parse fuel s2 (skipPastWhitespace c2)

/-- `detail::advance_past_comma_separated`: consume `intro`, skip
whitespace, if the next byte is not `outro` invoke `parse` once and
loop; finally do the unchecked `context.position++` past `outro`. -/
def advancePastCommaSeparated {σ : Type} (fuel : Nat) (intro outro : Char)
    (parse : σ → DecCtx → Option (Except DecodeErr (σ × DecCtx)))
    (s : σ) (c : DecCtx) : Option (Except DecodeErr (σ × DecCtx)) :=
  match advancePast c intro with
  | .error e => some (.error e)
  | .ok c1 =>
    let c2 := skipPastWhitespace c1
    if peek c2 = outro then some (.ok (s, ⟨c2.input, c2.pos + 1⟩))
    else
      match parse s c2 with
      | none => none
      | some (.error e) => some (.error e)
      | some (.ok (s2, c3)) =>
        match commaSepLoop outro parse fuel s2 (skipPastWhitespace c3) with
        | none => none
        | some (.error e) => some (.error e)
        | some (.ok (s4, c4)) => some (.ok (s4, ⟨c4.input, c4.pos + 1⟩))

/-- Modelled from the spec: the escape table of the JSON string codec's
encoder (`codec::string_t`, string.hpp is not part of the provided
sources).  The quote, the backslash and the named control characters
are escaped with their short escapes; other bytes are emitted
literally (spec §6: compact output, non-ASCII preserved literally). -/
def escapeChar (ch : Char) : List Char :=
  if ch = '"' then ['\\', '"']
  else if ch = '\\' then ['\\', '\\']
  else if ch = Char.ofNat 8 then ['\\', 'b']
  else if ch = Char.ofNat 12 then ['\\', 'f']
  else if ch = '\n' then ['\\', 'n']
  else if ch = '\r' then ['\\', 'r']
  else if ch = '\t' then ['\\', 't']
  else [ch]

def stringEncodeBody (s : List Char) : List Char := (s.map escapeChar).flatten

/-- Modelled from the spec: `codec::string_t::encode`: a quoted,
escaped JSON string. -/
def stringEncode (s : String) : List Char := '"' :: stringEncodeBody s.data ++ ['"']

/-- Value of a hex digit (meaningful only when `isHexDigit` holds). -/
def hexVal (ch : Char) : Nat :=
  if '0' ≤ ch && ch ≤ '9' then ch.toNat - '0'.toNat
  else if 'A' ≤ ch && ch ≤ 'F' then ch.toNat - 'A'.toNat + 10
  else ch.toNat - 'a'.toNat + 10

/-- The character denoted by a short escape (`\b \f \n \r \t`); the
self-representing escapes `\" \\ \/` map to themselves. -/
def unescapeChar (ch : Char) : Char :=
  if ch = 'b' then Char.ofNat 8
  else if ch = 'f' then Char.ofNat 12
  else if ch = 'n' then '\n'
  else if ch = 'r' then '\r'
  else if ch = 't' then '\t'
  else ch

/-- Modelled from the spec: the loop of `codec::string_t::decode`
(string.hpp is not part of the provided sources).  Accumulates decoded
characters (in reverse) until the unescaped closing quote; handles the
escape table and `\uXXXX` with the same validation as
`advance_past_string_escape_after_slash` (spec §4.1, §4.3: key decoding
via the string codec, escapes fully respected). -/
def stringDecodeBody (acc : List Char) (c : DecCtx) : Except DecodeErr (List Char × DecCtx) :=
  match h : next c "Unterminated string" with
  | .error e => .error e
  | .ok (ch, c1) =>
    if ch = '"' then .ok (acc.reverse, c1)
    else if ch = '\\' then
      match h2 : next c1 "Unterminated string" with
      | .error e => .error e
      | .ok (e1, c2) =>
        if e1 = 'u' then
          if c2.remaining < 4 then decodeFail c2 "\\u must be followed by 4 hex digits" 0
          else
            let d0 := c2.input.getD c2.pos nullChar
            let d1 := c2.input.getD (c2.pos + 1) nullChar
            let d2 := c2.input.getD (c2.pos + 2) nullChar
            let d3 := c2.input.getD (c2.pos + 3) nullChar
            let c6 : DecCtx := ⟨c2.input, c2.pos + 4⟩
            if isHexDigit d0 && isHexDigit d1 && isHexDigit d2 && isHexDigit d3 then
              stringDecodeBody
                (Char.ofNat (((hexVal d0 * 16 + hexVal d1) * 16 + hexVal d2) * 16 + hexVal d3)
                  :: acc) c6
            else decodeFail c6 "\\u must be followed by 4 hex digits" 0
        else if e1 = '"' || e1 = '\\' || e1 = '/' || e1 = 'b' || e1 = 'f' ||
            e1 = 'n' || e1 = 'r' || e1 = 't' then
          stringDecodeBody (unescapeChar e1 :: acc) c2
        else decodeFail c2 "Invalid escape character" (-1)
    else stringDecodeBody (ch :: acc) c1
termination_by c.input.length - c.pos
decreasing_by
  · obtain ⟨hi, hp, hl, _⟩ := next_ok h
    obtain ⟨hi2, hp2, _, _⟩ := next_ok h2
    simp only [hi, hi2, hp, hp2]
    omega
  · obtain ⟨hi, hp, hl, _⟩ := next_ok h
    obtain ⟨hi2, hp2, _, _⟩ := next_ok h2
    simp only [hi, hi2, hp, hp2]
    omega
  · obtain ⟨hi, hp, hl, _⟩ := next_ok h
    simp only [hi, hp]
    omega

/-- Modelled from the spec: `codec::string_t::decode` (the key codec of
`advance_past_object<string_t>`): expect `"`, decode the body. -/
def stringDecode (c : DecCtx) : Except DecodeErr (String × DecCtx) :=
  match advancePast c '"' with
  | .error e => .error e
  | .ok c1 =>
    match stringDecodeBody [] c1 with
    | .error e => .error e
    | .ok (chars, c2) => .ok (⟨chars⟩, c2)

/-- Length of the leading digit run of a character list. -/
def digitCount : List Char → Nat
  | [] => 0
  | ch :: rest => if ch.isDigit then digitCount rest + 1 else 0

/-- Modelled from the spec: the number-skipping span of `skip_value`
(spec §4.1): optional sign, integer part, optional `.` with fractional
part, optional `e`/`E` with optional sign and exponent digits. -/
def numberSpanLen (l : List Char) : Nat :=
  let sgn := if l.head? = some '-' then 1 else 0
  let rest1 := l.drop sgn
  let intPart := digitCount rest1
  let rest2 := rest1.drop intPart
  let frac := if rest2.head? = some '.' then 1 + digitCount (rest2.drop 1) else 0
  let rest3 := rest2.drop frac
  let expPart :=
    match rest3.head? with
    | some c =>
      if c = 'e' || c = 'E' then
        let es :=
          if (rest3.drop 1).head? = some '+' || (rest3.drop 1).head? = some '-' then 1 else 0
        1 + es + digitCount (rest3.drop (1 + es))
      else 0
    | none => 0
  sgn + intPart + frac + expPart

def skipNumber (c : DecCtx) : DecCtx :=
  ⟨c.input, c.pos + numberSpanLen (c.input.drop c.pos)⟩

/-- Modelled from the spec: `detail::skip_value` (skip_value.hpp is not
part of the provided sources).  Dispatches on the first non-whitespace
byte; objects and arrays are skipped by driving
`advance_past_comma_separated`, strings via `advance_past_string`,
literals via `advance_past_four` (after the `'f'` of `false` the known
byte is skipped unchecked), numbers by consuming the numeric span;
anything else fails.  Fuel bounds both loop iterations and nesting
depth; `none` models nontermination/exhaustion. -/
def skipValueF : Nat → DecCtx → Option (Except DecodeErr DecCtx)
  | 0, _ => none
  | fuel + 1, c =>
    let c1 := skipPastWhitespace c
    let ch := peek c1
    if ch = '{' then
      let parsePair : Unit → DecCtx → Option (Except DecodeErr (Unit × DecCtx)) := fun _ ca =>
        match advancePastString ca with
        | .error e => some (.error e)
        | .ok cb =>
          match advancePast (skipPastWhitespace cb) ':' with
          | .error e => some (.error e)
          | .ok cc =>
            match skipValueF fuel (skipPastWhitespace cc) with
            | none => none
            | some (.error e) => some (.error e)
            | some (.ok cd) => some (.ok ((), cd))
      match advancePastCommaSeparated (fuel + 1) '{' '}' parsePair () c1 with
      | none => none
      | some (.error e) => some (.error e)
      | some (.ok (_, c2)) => some (.ok c2)
    else if ch = '[' then
      let parseElem : Unit → DecCtx → Option (Except DecodeErr (Unit × DecCtx)) := fun _ ca =>
        match skipValueF fuel ca with
        | none => none
        | some (.error e) => some (.error e)
        | some (.ok cb) => some (.ok ((), cb))
      match advancePastCommaSeparated (fuel + 1) '[' ']' parseElem () c1 with
      | none => none
      | some (.error e) => some (.error e)
      | some (.ok (_, c2)) => some (.ok c2)
    else if ch = '"' then
      match advancePastString c1 with
      | .error e => some (.error e)
      | .ok c2 => some (.ok c2)
    else if ch = 't' then some (advancePastFour c1 ['t', 'r', 'u', 'e'])
    else if ch = 'f' then some (advancePastFour ⟨c1.input, c1.pos + 1⟩ ['a', 'l', 's', 'e'])
    else if ch = 'n' then some (advancePastFour c1 ['n', 'u', 'l', 'l'])
    else if ch = '-' || ch.isDigit then some (.ok (skipNumber c1))
    else some (decodeFail c1 "Unexpected input" 0)

/-- Modelled from the spec: `encode_context::append_or_replace(old, new)`
(encode_context.hpp is not part of the provided sources): if the last
emitted byte equals `old`, overwrite it with `new`; otherwise append
`new` (spec §3). -/
def appendOrReplace (buf : List Char) (old new : Char) : List Char :=
  if buf.getLast? = some old then buf.dropLast ++ [new] else buf ++ [new]

/-- The codec protocol (spec §3, §4.2): `decode`, `encode` (appending to
the encode-context buffer, able to fail with a message), and
`should_encode`. -/
structure Codec (α : Type) where
  decode : DecCtx → Except DecodeErr (α × DecCtx)
  encode : List Char → α → Except String (List Char)
  shouldEncode : α → Bool

/-- `codec::optional_t` (boost.hpp): wraps an inner codec around an
optional.  `decode` delegates to the inner codec; `encode` fails with
"Cannot encode uninitialized optional" on an empty optional;
`should_encode` requires presence and the inner `should_encode`. -/
def optionalT {α : Type} (inner : Codec α) : Codec (Option α) where
  decode c :=
    match inner.decode c with
    | .error e => .error e
    | .ok (v, c1) => .ok (some v, c1)
  encode buf v :=
    match v with
    | none => .error "Cannot encode uninitialized optional"
    | some x => inner.encode buf x
  shouldEncode v :=
    match v with
    | none => false
    | some x => inner.shouldEncode x

/-- The behaviour half of `object_t::field`: the two virtual methods. -/
structure FieldBody (T : Type) where
  fdecode : DecCtx → T → Except DecodeErr (T × DecCtx)
  fencode : List Char → String → T → Except String (List Char)

/-- `object_t::field`: required flag, dense required-field index, and
behaviour.  (The C++ packs flag and index into one `size_t`; we keep
them as separate fields.) -/
structure Field (T : Type) where
  required : Bool
  reqIdx : Nat
  body : FieldBody T

/-- `object_t::member_var_field`, with an accessor pair modelling the
C++ member pointer: decode writes the child codec's value through
`set`; encode reads through `get`, and when the child's
`should_encode` holds appends the cached escaped key, the child
encoding, and `','` (`append_key_to_context` / `append_val_to_context`). -/
def memberVarBody {T α : Type} (codec : Codec α) (get : T → α) (set : T → α → T) :
    FieldBody T where
  fdecode c obj :=
    match codec.decode c with
    | .error e => .error e
    | .ok (v, c1) => .ok (set obj v, c1)
  fencode buf escapedKey obj :=
    let v := get obj
    if codec.shouldEncode v then
      match codec.encode (buf ++ escapedKey.data) v with
      | .error e => .error e
      | .ok buf2 => .ok (buf2 ++ [','])
    else .ok buf

/-- `object_t::dummy_field`: decode runs the child codec and discards
its value; encode uses a default-constructed sentinel (`defaultVal`
models `typename Codec::object_type()`). -/
def dummyBody {T α : Type} (codec : Codec α) (defaultVal : α) : FieldBody T where
  fdecode c obj :=
    match codec.decode c with
    | .error e => .error e
    | .ok (_, c1) => .ok (obj, c1)
  fencode buf escapedKey _ :=
    if codec.shouldEncode defaultVal then
      match codec.encode (buf ++ escapedKey.data) defaultVal with
      | .error e => .error e
      | .ok buf2 => .ok (buf2 ++ [','])
    else .ok buf

/-- `codec::object_t`: the construct value (factory or default
construction resolved to the value it produces), the ordered field
list (escaped key, descriptor), the key-to-descriptor map (modelled as
an association list), and `_num_required_fields`. -/
structure ObjectT (T : Type) where
  construct : T
  fieldList : List (String × Field T)
  fields : List (String × Field T)
  numRequired : Nat

/-- `object_t::escape_key`: run the string codec on the key and append
`':'`; cached at registration time. -/
def escapeKey (name : String) : String := ⟨stringEncode name ++ [':']⟩

/-- Lookup in the key-to-descriptor map (`_fields.find(key)`). -/
def findField {T : Type} (fs : List (String × Field T)) (k : String) : Option (Field T) :=
  match fs.find? (fun p => p.1 == k) with
  | none => none
  | some p => some p.2

/-- `object_t::save_field`: insert into the key map; only if the key
was absent, push `(escape_key(name), f)` onto the ordered field list
and add the required flag to `_num_required_fields`. -/
def saveField {T : Type} (o : ObjectT T) (name : String) (required : Bool) (f : Field T) :
    ObjectT T :=
  if (findField o.fields name).isSome then o
  else
    { o with
      fields := (name, f) :: o.fields
      fieldList := o.fieldList ++ [(escapeKey name, f)]
      numRequired := o.numRequired + (if required then 1 else 0) }

/-- One field registration (`object_t::optional` / `object_t::required`
with some accessor spec): key, required flag, behaviour. -/
structure Reg (T : Type) where
  name : String
  required : Bool
  body : FieldBody T

/-- `object_t::add_field`: build the descriptor with the current
`_num_required_fields` as its dense required index, then save it. -/
def applyReg {T : Type} (o : ObjectT T) (r : Reg T) : ObjectT T :=
  saveField o r.name r.required ⟨r.required, o.numRequired, r.body⟩

/-- A freshly constructed `object_t` (no registrations yet). -/
def emptyObj {T : Type} (t0 : T) : ObjectT T := ⟨t0, [], [], 0⟩

/-- An object codec built by a sequence of field registrations. -/
def buildObj {T : Type} (t0 : T) (regs : List (Reg T)) : ObjectT T :=
  regs.foldl applyReg (emptyObj t0)

/-- The field loop of `object_t::encode`. -/
def encodeFields {T : Type} (v : T) :
    List (String × Field T) → List Char → Except String (List Char)
  | [], buf => .ok buf
  | (ek, f) :: rest, buf =>
    match f.body.fencode buf ek v with
    | .error e => .error e
    | .ok buf2 => encodeFields v rest buf2

/-- `object_t::encode`: append `'{'`, encode each descriptor in
registration order, then `append_or_replace(',', '}')`. -/
def objectEncode {T : Type} (o : ObjectT T) (buf : List Char) (v : T) :
    Except String (List Char) :=
  match encodeFields v o.fieldList (buf ++ ['{']) with
  | .error e => .error e
  | .ok buf2 => .ok (appendOrReplace buf2 ',' '}')

/-- Modelled from the spec: `detail::bitset<64>::test_and_set`
(bitset.hpp is not part of the provided sources): return the previous
value of bit `i` and set it; the mask is a `Nat` used as a bit vector
(the spec's design limit I5 keeps indices below 64). -/
def testAndSet (bs : Nat) (i : Nat) : Bool × Nat := (bs.testBit i, bs ||| (1 <<< i))

/-- The decode state of `object_t::decode`: the output record under
construction, the required-field bitset, and `uniq_seen_required`. -/
abbrev ObjState (T : Type) := T × Nat × Nat

/-- The callback `object_t::decode` passes to `advance_past_object`:
look the decoded key up in `_fields`; if absent, `skip_value`; if
present, run the field's decode and, for required fields,
test-and-set its index and bump `uniq_seen_required` iff the bit was
previously clear. -/
def objStep {T : Type} (o : ObjectT T) (fuel : Nat) (key : String) :
    ObjState T → DecCtx → Option (Except DecodeErr (ObjState T × DecCtx))
  | (out, bs, uniq), c =>
    match findField o.fields key with
    | none =>
      match skipValueF fuel c with
      | none => none
      | some (.error e) => some (.error e)
      | some (.ok c1) => some (.ok ((out, bs, uniq), c1))
    | some f =>
      match f.body.fdecode c out with
      | .error e => some (.error e)
      | .ok (out1, c1) =>
        if f.required then
          let ts := testAndSet bs f.reqIdx
          some (.ok ((out1, ts.2, uniq + (if ts.1 then 0 else 1)), c1))
        else some (.ok ((out1, bs, uniq), c1))

/-- The element parser of `detail::advance_past_object<string_t>`:
decode one JSON string as the key, skip whitespace, require `':'`,
skip whitespace, hand over to the callback. -/
def objParsePair {T : Type} (o : ObjectT T) (fuel : Nat) :
    ObjState T → DecCtx → Option (Except DecodeErr (ObjState T × DecCtx)) :=
  fun s c =>
    match stringDecode c with
    | .error e => some (.error e)
    | .ok (key, c1) =>
      match advancePast (skipPastWhitespace c1) ':' with
      | .error e => some (.error e)
      | .ok c2 => objStep o fuel key s (skipPastWhitespace c2)

/-- `object_t::decode`: drive `advance_past_object` from a cleared
bitset and zero `uniq_seen_required`, starting from the constructed
record; after the closing `'}'` fail with "Missing required field(s)"
unless `uniq_seen_required = _num_required_fields`. -/
def objectDecodeF {T : Type} (o : ObjectT T) (fuel : Nat) (c : DecCtx) :
    Option (Except DecodeErr (T × DecCtx)) :=
  match advancePastCommaSeparated fuel '{' '}' (objParsePair o fuel) (o.construct, 0, 0) c with
  | none => none
  | some (.error e) => some (.error e)
  | some (.ok ((out, _bs, uniq), c1)) =>
    if uniq ≠ o.numRequired then some (decodeFail c1 "Missing required field(s)" 0)
    else some (.ok (out, c1))

/-- Modelled from the spec: a minimal boolean scalar codec
(`codec::boolean`, boolean.hpp is not part of the provided sources),
used as a concrete child codec in witnesses: decode dispatches on the
first byte and consumes the `true`/`false` literal
(`advance_past_true` / `advance_past_false`), encode emits the
literal, `should_encode` is the default `true`. -/
def boolCodec : Codec Bool where
  decode c :=
    if peek c = 't' then
      match advancePastFour c ['t', 'r', 'u', 'e'] with
      | .error e => .error e
      | .ok c1 => .ok (true, c1)
    else if peek c = 'f' then
      match advancePastFour ⟨c.input, c.pos + 1⟩ ['a', 'l', 's', 'e'] with
      | .error e => .error e
      | .ok c1 => .ok (false, c1)
    else decodeFail c "Unexpected input" 0
  encode buf v := .ok (buf ++ (if v then ['t', 'r', 'u', 'e'] else ['f', 'a', 'l', 's', 'e']))
  shouldEncode _ := true

/-! ## Stepping lemmas for the scanner primitives

All stated in "drop form": the bytes from the cursor on are
`c.input.drop c.pos`. -/

theorem drop_ne_nil_lt {inp : List Char} {p : Nat} {ch : Char} {r : List Char}
    (h : inp.drop p = ch :: r) : p < inp.length := by
  by_contra hle
  rw [List.drop_eq_nil_iff.mpr (by omega)] at h
  exact absurd h (by simp)

theorem drop_shift {l a r : List Char} {p : Nat}
    (h : l.drop p = a ++ r) : l.drop (p + a.length) = r := by
  rw [← List.drop_drop, h, List.drop_left]

theorem getD_of_drop {inp : List Char} {p : Nat} {ch : Char} {r : List Char}
    (h : inp.drop p = ch :: r) : inp.getD p nullChar = ch := by
  have h1 : (inp.drop p).head? = inp[p]? := List.head?_drop ..
  rw [h] at h1
  rw [List.getD_eq_getElem?_getD, ← h1]
  rfl

theorem peek_drop {c : DecCtx} {ch : Char} {r : List Char}
    (h : c.input.drop c.pos = ch :: r) : peek c = ch := by
  have hp : c.pos < c.input.length := drop_ne_nil_lt h
  unfold peek DecCtx.remaining
  rw [if_pos (by omega)]
  exact getD_of_drop h

theorem remaining_drop {c : DecCtx} {a : List Char}
    (h : c.input.drop c.pos = a) : c.remaining = a.length := by
  unfold DecCtx.remaining
  rw [← List.length_drop, h]

theorem next_drop {c : DecCtx} {ch : Char} {r : List Char} {msg : String}
    (h : c.input.drop c.pos = ch :: r) :
    next c msg = .ok (ch, ⟨c.input, c.pos + 1⟩) := by
  have hp : c.pos < c.input.length := drop_ne_nil_lt h
  unfold next
  rw [if_neg (by unfold DecCtx.remaining; omega)]
  rw [getD_of_drop h]

theorem advancePast_drop {c : DecCtx} {ch : Char} {r : List Char}
    (h : c.input.drop c.pos = ch :: r) :
    advancePast c ch = .ok ⟨c.input, c.pos + 1⟩ := by
  unfold advancePast
  rw [next_drop h]
  simp

theorem advancePastFour_drop {c : DecCtx} {s r : List Char}
    (h : c.input.drop c.pos = s ++ r) (hlen : s.length = 4) :
    advancePastFour c s = .ok ⟨c.input, c.pos + 4⟩ := by
  have hrem : c.remaining = 4 + r.length := by
    have h2 := remaining_drop (c := c) h
    rw [h2, List.length_append, hlen]
  have htake : (c.input.drop c.pos).take 4 = s.take 4 := by
    rw [h, ← hlen, List.take_left, List.take_length]
  unfold advancePastFour
  rw [if_neg (by omega), htake, if_neg (by simp)]

theorem wsCount_exact {w : List Char} {ch : Char} {r : List Char}
    (hw : ∀ x ∈ w, isWsChar x) (hch : ¬ (isWsChar ch = true)) :
    wsCount (w ++ ch :: r) = w.length := by
  induction w with
  | nil => simpa [wsCount] using hch
  | cons a w ih =>
    have ha : isWsChar a = true := hw a (by simp)
    have ih2 := ih (fun x hx => hw x (by simp [hx]))
    rw [List.cons_append]
    show (if isWsChar a = true then wsCount (w ++ ch :: r) + 1 else 0) = (a :: w).length
    rw [if_pos ha, ih2, List.length_cons]

theorem skipWs_drop {c : DecCtx} {w : List Char} {ch : Char} {r : List Char}
    (h : c.input.drop c.pos = w ++ ch :: r)
    (hw : ∀ x ∈ w, isWsChar x) (hch : ¬ (isWsChar ch = true)) :
    skipPastWhitespace c = ⟨c.input, c.pos + w.length⟩ := by
  unfold skipPastWhitespace
  rw [h, wsCount_exact hw hch]

theorem skipWs_nil {c : DecCtx} {ch : Char} {r : List Char}
    (h : c.input.drop c.pos = ch :: r) (hch : ¬ (isWsChar ch = true)) :
    skipPastWhitespace c = c := by
  have := skipWs_drop (w := []) (by simpa using h) (by simp) hch
  simpa using this

/-! ## Locality predicates: a decoder consumes exactly a given byte span,
independently of the surrounding input. -/

/-- `d` consumes exactly `bytes` (wherever they sit in the input),
producing `v`. -/
def DecConsumes {α : Type} (d : DecCtx → Except DecodeErr (α × DecCtx))
    (bytes : List Char) (v : α) : Prop :=
  ∀ pre post, d ⟨pre ++ bytes ++ post, pre.length⟩ =
    .ok (v, ⟨pre ++ bytes ++ post, pre.length + bytes.length⟩)

/-- The string codec consumes exactly `kb`, producing the key `k`. -/
def StrConsumes (kb : List Char) (k : String) : Prop := DecConsumes stringDecode kb k

theorem decConsumes_apply {α : Type} {d : DecCtx → Except DecodeErr (α × DecCtx)}
    {bytes : List Char} {v : α} (hd : DecConsumes d bytes v) {c : DecCtx} {r : List Char}
    (h : c.input.drop c.pos = bytes ++ r) (hpos : c.pos ≤ c.input.length) :
    d c = .ok (v, ⟨c.input, c.pos + bytes.length⟩) := by
  obtain ⟨inp, p⟩ := c
  simp only at h hpos ⊢
  have hlen : (inp.take p).length = p := by rw [List.length_take]; omega
  have hinp : inp = inp.take p ++ (bytes ++ r) := by
    conv_lhs => rw [← List.take_append_drop p inp, h]
  have happ := hd (inp.take p) r
  rw [hlen] at happ
  rw [show (⟨inp, p⟩ : DecCtx) = ⟨inp.take p ++ bytes ++ r, p⟩ from by
    rw [List.append_assoc, ← hinp]]
  rw [happ, List.append_assoc, ← hinp]

/-! ## Round trip of the string codec -/

theorem stringDecodeBody_close {acc : List Char} {c : DecCtx} {r : List Char}
    (h : c.input.drop c.pos = '"' :: r) :
    stringDecodeBody acc c = .ok (acc.reverse, ⟨c.input, c.pos + 1⟩) := by
  unfold stringDecodeBody
  split
  · rename_i e heq
    rw [next_drop h] at heq
    exact absurd heq (by simp)
  · rename_i ch c1 heq
    rw [next_drop h] at heq
    injection heq with heq2
    injection heq2 with ha hb
    rw [← ha, ← hb]
    simp

theorem stringDecodeBody_plain {c0 : Char} {acc : List Char} {c : DecCtx} {r2 : List Char}
    (h : c.input.drop c.pos = c0 :: r2) (h1 : c0 ≠ '"') (h2 : c0 ≠ '\\') :
    stringDecodeBody acc c = stringDecodeBody (c0 :: acc) ⟨c.input, c.pos + 1⟩ := by
  conv_lhs => unfold stringDecodeBody
  split
  · rename_i e heq
    rw [next_drop h] at heq
    exact absurd heq (by simp)
  · rename_i ch c1 heq
    rw [next_drop h] at heq
    injection heq with heq2
    injection heq2 with ha hb
    rw [← ha, ← hb, if_neg h1, if_neg h2]

theorem stringDecodeBody_esc {x : Char} {acc : List Char} {c : DecCtx} {r2 : List Char}
    (h : c.input.drop c.pos = '\\' :: x :: r2)
    (hx : (x = '"' || x = '\\' || x = '/' || x = 'b' || x = 'f' ||
      x = 'n' || x = 'r' || x = 't' : Bool) = true)
    (hu : x ≠ 'u') :
    stringDecodeBody acc c = stringDecodeBody (unescapeChar x :: acc) ⟨c.input, c.pos + 2⟩ := by
  have hd2 : c.input.drop (c.pos + 1) = x :: r2 :=
    drop_shift (a := ['\\']) (by simpa using h)
  have hn2 : next (⟨c.input, c.pos + 1⟩ : DecCtx) "Unterminated string"
      = .ok (x, ⟨c.input, c.pos + 1 + 1⟩) := next_drop hd2
  conv_lhs => unfold stringDecodeBody
  split
  · rename_i e heq
    rw [next_drop h] at heq
    exact absurd heq (by simp)
  · rename_i ch c1 heq
    rw [next_drop h] at heq
    injection heq with heq2
    injection heq2 with ha hb
    rw [← ha, ← hb, if_neg (by decide), if_pos rfl]
    split
    · rename_i e heq2
      rw [hn2] at heq2
      exact absurd heq2 (by simp)
    · rename_i e1 c2 heq2
      rw [hn2] at heq2
      injection heq2 with heq3
      injection heq3 with hc hd
      rw [← hc, ← hd, if_neg hu, if_pos hx]

theorem stringDecodeBody_enc {s : List Char} {u : List Char} {c : DecCtx} {r : List Char}
    (h : c.input.drop c.pos = stringEncodeBody s ++ '"' :: r) :
    stringDecodeBody u c =
      .ok (u.reverse ++ s, ⟨c.input, c.pos + (stringEncodeBody s).length + 1⟩) := by
  induction s generalizing u c with
  | nil =>
    have h0 : c.input.drop c.pos = '"' :: r := by
      simpa [stringEncodeBody] using h
    rw [stringDecodeBody_close h0]
    simp [stringEncodeBody]
  | cons c0 s ih =>
    have hbody : stringEncodeBody (c0 :: s) = escapeChar c0 ++ stringEncodeBody s := by
      simp [stringEncodeBody]
    rw [hbody] at h
    have h2 : c.input.drop c.pos = escapeChar c0 ++ (stringEncodeBody s ++ '"' :: r) := by
      rw [h, List.append_assoc]
    have hshift : c.input.drop (c.pos + (escapeChar c0).length)
        = stringEncodeBody s ++ '"' :: r := drop_shift h2
    have hstep : stringDecodeBody u c
        = stringDecodeBody (c0 :: u) ⟨c.input, c.pos + (escapeChar c0).length⟩ := by
      unfold escapeChar at h2 ⊢
      by_cases e1 : c0 = '"'
      · subst e1
        simp only [if_pos rfl] at h2 ⊢
        rw [stringDecodeBody_esc (by simpa using h2) (by decide) (by decide)]
        simp [unescapeChar]
      · rw [if_neg e1] at h2 ⊢
        by_cases e2 : c0 = '\\'
        · subst e2
          simp only [if_pos rfl] at h2 ⊢
          rw [stringDecodeBody_esc (by simpa using h2) (by decide) (by decide)]
          simp [unescapeChar]
        · rw [if_neg e2] at h2 ⊢
          by_cases e3 : c0 = Char.ofNat 8
          · subst e3
            simp only [if_pos rfl] at h2 ⊢
            rw [stringDecodeBody_esc (by simpa using h2) (by decide) (by decide)]
            simp [unescapeChar]
          · rw [if_neg e3] at h2 ⊢
            by_cases e4 : c0 = Char.ofNat 12
            · subst e4
              simp only [if_pos rfl] at h2 ⊢
              rw [stringDecodeBody_esc (by simpa using h2) (by decide) (by decide)]
              simp [unescapeChar]
            · rw [if_neg e4] at h2 ⊢
              by_cases e5 : c0 = '\n'
              · subst e5
                simp only [if_pos rfl] at h2 ⊢
                rw [stringDecodeBody_esc (by simpa using h2) (by decide) (by decide)]
                simp [unescapeChar]
              · rw [if_neg e5] at h2 ⊢
                by_cases e6 : c0 = '\r'
                · subst e6
                  simp only [if_pos rfl] at h2 ⊢
                  rw [stringDecodeBody_esc (by simpa using h2) (by decide) (by decide)]
                  simp [unescapeChar]
                · rw [if_neg e6] at h2 ⊢
                  by_cases e7 : c0 = '\t'
                  · subst e7
                    simp only [if_pos rfl] at h2 ⊢
                    rw [stringDecodeBody_esc (by simpa using h2) (by decide) (by decide)]
                    simp [unescapeChar]
                  · rw [if_neg e7] at h2 ⊢
                    exact stringDecodeBody_plain (by simpa using h2) e1 e2
    rw [hstep, ih (by simpa using hshift)]
    have hrev : (c0 :: u).reverse = u.reverse ++ [c0] := by simp
    rw [hrev, List.append_assoc]
    have hlen2 : c.pos + (escapeChar c0).length + (stringEncodeBody s).length + 1
        = c.pos + (stringEncodeBody (c0 :: s)).length + 1 := by
      rw [hbody, List.length_append]
      omega
    rw [hlen2]
    rfl

/-- The string codec round-trips: the encoding of any key is consumed
exactly and decodes back to the key. -/
theorem strConsumes_encode (k : String) : StrConsumes (stringEncode k) k := by
  intro pre post
  have hd0 : (pre ++ stringEncode k ++ post).drop pre.length
      = '"' :: (stringEncodeBody k.data ++ '"' :: post) := by
    rw [List.append_assoc, List.drop_left]
    simp [stringEncode]
  have hd1 : (pre ++ stringEncode k ++ post).drop (pre.length + 1)
      = stringEncodeBody k.data ++ '"' :: post :=
    drop_shift (a := ['"']) (by simpa using hd0)
  have henc := stringDecodeBody_enc (u := ([] : List Char))
      (c := (⟨pre ++ stringEncode k ++ post, pre.length + 1⟩ : DecCtx)) hd1
  unfold stringDecode
  simp only [advancePast_drop (c := ⟨pre ++ stringEncode k ++ post, pre.length⟩) hd0, henc,
    List.reverse_nil, List.nil_append]
  rw [show (⟨k.data⟩ : String) = k from by cases k; rfl]
  have hlen : pre.length + 1 + (stringEncodeBody k.data).length + 1
      = pre.length + (stringEncode k).length := by
    simp [stringEncode]
    omega
  rw [hlen]

/-! ## Key/value pairs of a JSON object input -/

/-- A field decoder consumes exactly `bytes`, transforming the record
by `g`. -/
def FieldConsumes {T : Type} (fd : DecCtx → T → Except DecodeErr (T × DecCtx))
    (bytes : List Char) (g : T → T) : Prop :=
  ∀ pre post out, fd ⟨pre ++ bytes ++ post, pre.length⟩ out =
    .ok (g out, ⟨pre ++ bytes ++ post, pre.length + bytes.length⟩)

/-- `skip_value` with the given fuel consumes exactly `bytes`. -/
def SkipConsumes (fuel : Nat) (bytes : List Char) : Prop :=
  ∀ pre post, skipValueF fuel ⟨pre ++ bytes ++ post, pre.length⟩ =
    some (.ok ⟨pre ++ bytes ++ post, pre.length + bytes.length⟩)

theorem fieldConsumes_apply {T : Type} {fd : DecCtx → T → Except DecodeErr (T × DecCtx)}
    {bytes : List Char} {g : T → T} (hd : FieldConsumes fd bytes g) {c : DecCtx}
    {r : List Char} (h : c.input.drop c.pos = bytes ++ r) (hpos : c.pos ≤ c.input.length)
    (out : T) :
    fd c out = .ok (g out, ⟨c.input, c.pos + bytes.length⟩) := by
  obtain ⟨inp, p⟩ := c
  simp only at h hpos ⊢
  have hlen : (inp.take p).length = p := by rw [List.length_take]; omega
  have hinp : inp = inp.take p ++ (bytes ++ r) := by
    conv_lhs => rw [← List.take_append_drop p inp, h]
  have happ := hd (inp.take p) r out
  rw [hlen] at happ
  rw [show (⟨inp, p⟩ : DecCtx) = ⟨inp.take p ++ bytes ++ r, p⟩ from by
    rw [List.append_assoc, ← hinp]]
  rw [happ, List.append_assoc, ← hinp]

theorem skipConsumes_apply {fuel : Nat} {bytes : List Char}
    (hd : SkipConsumes fuel bytes) {c : DecCtx} {r : List Char}
    (h : c.input.drop c.pos = bytes ++ r) (hpos : c.pos ≤ c.input.length) :
    skipValueF fuel c = some (.ok ⟨c.input, c.pos + bytes.length⟩) := by
  obtain ⟨inp, p⟩ := c
  simp only at h hpos ⊢
  have hlen : (inp.take p).length = p := by rw [List.length_take]; omega
  have hinp : inp = inp.take p ++ (bytes ++ r) := by
    conv_lhs => rw [← List.take_append_drop p inp, h]
  have happ := hd (inp.take p) r
  rw [hlen] at happ
  rw [show (⟨inp, p⟩ : DecCtx) = ⟨inp.take p ++ bytes ++ r, p⟩ from by
    rw [List.append_assoc, ← hinp]]
  rw [happ, List.append_assoc, ← hinp]

/-- One key/value pair of a JSON object input, decomposed: whitespace
before the pair (after its separating comma), the key bytes, the
whitespace around the colon, the value bytes, the whitespace after the
pair, together with the decoded key and the record transformation the
value decoding performs. -/
structure PairItem (T : Type) where
  wsA : List Char
  kb : List Char
  key : String
  w1 : List Char
  w2 : List Char
  vb : List Char
  wsB : List Char
  g : T → T

/-- The bytes of a pair: key bytes, whitespace, `':'`, whitespace,
value bytes. -/
def pairBytes {T : Type} (p : PairItem T) : List Char :=
  p.kb ++ p.w1 ++ ':' :: p.w2 ++ p.vb

/-- The bytes of the second to last pairs of an object: each preceded
by `','` and its leading whitespace, followed by its trailing
whitespace. -/
def pairTail {T : Type} : List (PairItem T) → List Char
  | [] => []
  | p :: rest => ',' :: (p.wsA ++ pairBytes p ++ p.wsB ++ pairTail rest)

/-- A complete JSON object: `'{'`, leading whitespace, the first pair
(if any) with its trailing whitespace, the remaining pairs each after
a comma, and `'}'`. -/
def objBytes {T : Type} (w0 : List Char) (ps : List (PairItem T)) : List Char :=
  match ps with
  | [] => '{' :: w0 ++ ['}']
  | p :: rest => '{' :: w0 ++ (pairBytes p ++ p.wsB ++ pairTail rest) ++ ['}']

/-- The state transformation one key/value pair performs in
`object_t::decode`: unknown keys change nothing; registered keys run
the field transform and, when required, test-and-set the bitset index
and count first sightings. -/
def pairStep {T : Type} (o : ObjectT T) (key : String) (g : T → T) :
    ObjState T → ObjState T
  | (out, bs, uniq) =>
    match findField o.fields key with
    | none => (out, bs, uniq)
    | some f =>
      if f.required then
        (g out, bs ||| (1 <<< f.reqIdx), uniq + (if bs.testBit f.reqIdx then 0 else 1))
      else (g out, bs, uniq)

/-- A well-formed pair for the object decode loop: the key bytes are a
JSON string decoding to `key`; the whitespace chunks are whitespace;
the value bytes start with a non-whitespace byte and are consumed
exactly, by the registered field's decoder (transforming by `g`) or by
`skip_value` for unknown keys. -/
def GoodPair {T : Type} (o : ObjectT T) (fuel : Nat) (p : PairItem T) : Prop :=
  (∃ t, p.kb = '"' :: t) ∧
  StrConsumes p.kb p.key ∧
  (∀ x ∈ p.wsA, isWsChar x) ∧ (∀ x ∈ p.w1, isWsChar x) ∧
  (∀ x ∈ p.w2, isWsChar x) ∧ (∀ x ∈ p.wsB, isWsChar x) ∧
  (∃ h t, p.vb = h :: t ∧ ¬ (isWsChar h = true)) ∧
  (match findField o.fields p.key with
   | some f => FieldConsumes f.body.fdecode p.vb p.g
   | none => SkipConsumes fuel p.vb)

theorem pairBytes_length {T : Type} (p : PairItem T) :
    (pairBytes p).length = p.kb.length + p.w1.length + 1 + p.w2.length + p.vb.length := by
  simp [pairBytes]
  omega

/-- The object-pair parser consumes exactly the bytes of a good pair
and transforms the loop state by `pairStep`. -/
theorem objParsePair_drop {T : Type} {o : ObjectT T} {fuel : Nat} {p : PairItem T}
    (hp : GoodPair o fuel p) {c : DecCtx} {r : List Char}
    (h : c.input.drop c.pos = pairBytes p ++ r) (s : ObjState T) :
    objParsePair o fuel s c =
      some (.ok (pairStep o p.key p.g s, ⟨c.input, c.pos + (pairBytes p).length⟩)) := by
  obtain ⟨⟨kt, hkb⟩, hstr, _hwsA, hw1, hw2, _hwsB, ⟨vh, vt, hvb, hvh⟩, hval⟩ := hp
  have hshape : c.input.drop c.pos
      = p.kb ++ (p.w1 ++ (':' :: (p.w2 ++ (p.vb ++ r)))) := by
    rw [h]
    simp [pairBytes]
  have hpos : c.pos ≤ c.input.length := by
    have : c.input.drop c.pos = '"' :: (kt ++ (p.w1 ++ (':' :: (p.w2 ++ (p.vb ++ r))))) := by
      rw [hshape, hkb]
      simp
    exact Nat.le_of_lt (drop_ne_nil_lt this)
  have hkey : stringDecode c = .ok (p.key, ⟨c.input, c.pos + p.kb.length⟩) :=
    decConsumes_apply hstr hshape hpos
  have hd1 : c.input.drop (c.pos + p.kb.length)
      = p.w1 ++ (':' :: (p.w2 ++ (p.vb ++ r))) := drop_shift hshape
  have hws1 : skipPastWhitespace (⟨c.input, c.pos + p.kb.length⟩ : DecCtx)
      = ⟨c.input, c.pos + p.kb.length + p.w1.length⟩ :=
    skipWs_drop hd1 hw1 (by decide)
  have hd2 : c.input.drop (c.pos + p.kb.length + p.w1.length)
      = ':' :: (p.w2 ++ (p.vb ++ r)) := by
    have := drop_shift (a := p.w1) (l := c.input) (p := c.pos + p.kb.length) hd1
    simpa using this
  have hcolon : advancePast (⟨c.input, c.pos + p.kb.length + p.w1.length⟩ : DecCtx) ':'
      = .ok ⟨c.input, c.pos + p.kb.length + p.w1.length + 1⟩ :=
    advancePast_drop hd2
  have hd3 : c.input.drop (c.pos + p.kb.length + p.w1.length + 1)
      = p.w2 ++ (vh :: (vt ++ r)) := by
    have := drop_shift (a := [':']) (l := c.input)
      (p := c.pos + p.kb.length + p.w1.length) (by simpa using hd2)
    simpa [hvb] using this
  have hws2 : skipPastWhitespace
      (⟨c.input, c.pos + p.kb.length + p.w1.length + 1⟩ : DecCtx)
      = ⟨c.input, c.pos + p.kb.length + p.w1.length + 1 + p.w2.length⟩ :=
    skipWs_drop hd3 hw2 hvh
  have hd4 : c.input.drop (c.pos + p.kb.length + p.w1.length + 1 + p.w2.length)
      = p.vb ++ r := by
    have := drop_shift (a := p.w2) (l := c.input)
      (p := c.pos + p.kb.length + p.w1.length + 1) (by simpa [hvb] using hd3)
    simpa [hvb] using this
  have hpos4 : c.pos + p.kb.length + p.w1.length + 1 + p.w2.length ≤ c.input.length := by
    have : c.input.drop (c.pos + p.kb.length + p.w1.length + 1 + p.w2.length)
        = vh :: (vt ++ r) := by rw [hd4, hvb]; simp
    exact Nat.le_of_lt (drop_ne_nil_lt this)
  obtain ⟨out, bs, uniq⟩ := s
  have hlen : c.pos + p.kb.length + p.w1.length + 1 + p.w2.length + p.vb.length
      = c.pos + (pairBytes p).length := by
    rw [pairBytes_length]
    omega
  unfold objParsePair
  simp only [hkey, hws1, hcolon, hws2]
  unfold objStep
  cases hf : findField o.fields p.key with
  | none =>
    rw [hf] at hval
    have hskip := skipConsumes_apply hval
      (c := ⟨c.input, c.pos + p.kb.length + p.w1.length + 1 + p.w2.length⟩) hd4 hpos4
    simp only [hf, hskip, pairStep, hlen]
  | some f =>
    rw [hf] at hval
    have hfd := fieldConsumes_apply hval
      (c := ⟨c.input, c.pos + p.kb.length + p.w1.length + 1 + p.w2.length⟩) hd4 hpos4 out
    simp only [hf, hfd, pairStep, hlen]
    by_cases hreq : f.required
    · simp [hreq, testAndSet]
    · simp [hreq]

/-- Folding the pair transformations over the loop state. -/
def foldPairs {T : Type} (o : ObjectT T) (ps : List (PairItem T)) (s : ObjState T) :
    ObjState T :=
  ps.foldl (fun s p => pairStep o p.key p.g s) s

theorem pairTail_length {T : Type} (p : PairItem T) (rest : List (PairItem T)) :
    (pairTail (p :: rest)).length
      = 1 + p.wsA.length + (pairBytes p).length + p.wsB.length + (pairTail rest).length := by
  simp [pairTail]
  omega

theorem pairTail_head {T : Type} (rest : List (PairItem T)) (r : List Char) :
    ∃ ch r2, pairTail rest ++ '}' :: r = ch :: r2 ∧ ¬ (isWsChar ch = true) := by
  cases rest with
  | nil => exact ⟨'}', r, by simp [pairTail], by decide⟩
  | cons p rest =>
    exact ⟨',', p.wsA ++ pairBytes p ++ p.wsB ++ pairTail rest ++ '}' :: r,
      by simp [pairTail], by decide⟩

/-- The `while` loop of the comma-separated driver over a list of good
pairs followed by the closing `'}'`: it folds the pair
transformations and stops with the cursor on the `'}'`. -/
theorem commaSepLoop_pairs {T : Type} {o : ObjectT T} {fuel : Nat} {ps : List (PairItem T)}
    (hgood : ∀ p ∈ ps, GoodPair o fuel p) {inp : List Char} {pos : Nat} {r : List Char}
    (h : inp.drop pos = pairTail ps ++ '}' :: r) (lfuel : Nat) (hfuel : ps.length < lfuel)
    (s : ObjState T) :
    commaSepLoop '}' (objParsePair o fuel) lfuel s ⟨inp, pos⟩ =
      some (.ok (foldPairs o ps s, ⟨inp, pos + (pairTail ps).length⟩)) := by
  induction ps generalizing pos s lfuel with
  | nil =>
    cases lfuel with
    | zero => omega
    | succ l =>
      have h0 : inp.drop pos = '}' :: r := by simpa [pairTail] using h
      unfold commaSepLoop
      rw [if_pos (peek_drop (c := ⟨inp, pos⟩) h0)]
      simp [foldPairs, pairTail]
  | cons p rest ih =>
    cases lfuel with
    | zero => omega
    | succ l =>
      obtain ⟨⟨kt, hkb⟩, -, hwsA, -, -, hwsB, -, -⟩ := hgood p (by simp)
      have h1 : inp.drop pos
          = ',' :: (p.wsA ++ (pairBytes p ++ (p.wsB ++ (pairTail rest ++ '}' :: r)))) := by
        rw [h]
        simp [pairTail]
      have hcomma : advancePast (⟨inp, pos⟩ : DecCtx) ','
          = .ok ⟨inp, pos + 1⟩ := advancePast_drop h1
      have hd2 : inp.drop (pos + 1)
          = p.wsA ++ (pairBytes p ++ (p.wsB ++ (pairTail rest ++ '}' :: r))) :=
        drop_shift (a := [',']) (by simpa using h1)
      have hpbshape : pairBytes p ++ (p.wsB ++ (pairTail rest ++ '}' :: r))
          = '"' :: (kt ++ (p.w1 ++ (':' :: (p.w2 ++ (p.vb ++
              (p.wsB ++ (pairTail rest ++ '}' :: r))))))) := by
        simp [pairBytes, hkb]
      have hd2b := hd2
      rw [hpbshape] at hd2b
      have hws1 : skipPastWhitespace (⟨inp, pos + 1⟩ : DecCtx)
          = ⟨inp, pos + 1 + p.wsA.length⟩ := skipWs_drop hd2b hwsA (by decide)
      have hd3 : inp.drop (pos + 1 + p.wsA.length)
          = pairBytes p ++ (p.wsB ++ (pairTail rest ++ '}' :: r)) :=
        drop_shift (a := p.wsA) hd2
      have hpair := objParsePair_drop (hgood p (by simp))
        (c := ⟨inp, pos + 1 + p.wsA.length⟩) hd3 s
      have hd4 : inp.drop (pos + 1 + p.wsA.length + (pairBytes p).length)
          = p.wsB ++ (pairTail rest ++ '}' :: r) := drop_shift (a := pairBytes p) hd3
      obtain ⟨ch2, r2, hch2, hch2ws⟩ := pairTail_head rest r
      have hd4b := hd4
      rw [hch2] at hd4b
      have hws2 : skipPastWhitespace
          (⟨inp, pos + 1 + p.wsA.length + (pairBytes p).length⟩ : DecCtx)
          = ⟨inp, pos + 1 + p.wsA.length + (pairBytes p).length + p.wsB.length⟩ :=
        skipWs_drop hd4b hwsB hch2ws
      have hd5 : inp.drop (pos + 1 + p.wsA.length + (pairBytes p).length + p.wsB.length)
          = pairTail rest ++ '}' :: r := drop_shift (a := p.wsB) hd4
      have ihres := ih (fun q hq => hgood q (by simp [hq])) hd5 l
        (by simp only [List.length_cons] at hfuel; omega)
        (pairStep o p.key p.g s)
      have hpeek : peek (⟨inp, pos⟩ : DecCtx) = ',' := peek_drop h1
      unfold commaSepLoop
      rw [if_neg (by rw [hpeek]; decide)]
      simp only [hcomma, hws1, hpair, hws2, ihres]
      rw [pairTail_length]
      simp only [Option.some.injEq, Except.ok.injEq, Prod.mk.injEq, DecCtx.mk.injEq,
        foldPairs, List.foldl_cons, true_and, and_true, eq_self_iff_true]
      omega

theorem objBytes_length_nil {T : Type} (w0 : List Char) :
    (objBytes w0 ([] : List (PairItem T))).length = w0.length + 2 := by
  simp [objBytes]

theorem objBytes_length_cons {T : Type} (w0 : List Char) (p : PairItem T)
    (rest : List (PairItem T)) :
    (objBytes w0 (p :: rest)).length
      = 1 + w0.length + (pairBytes p).length + p.wsB.length + (pairTail rest).length + 1 := by
  simp [objBytes]
  omega

/-- `advance_past_comma_separated('{', '}')` over a rendered object:
folds the pair transformations and consumes through the closing `'}'`. -/
theorem advancePastCommaSeparated_pairs {T : Type} {o : ObjectT T} {fuel : Nat}
    {ps : List (PairItem T)} (hgood : ∀ p ∈ ps, GoodPair o fuel p) {w0 : List Char}
    (hw0 : ∀ x ∈ w0, isWsChar x) {inp : List Char} {pos : Nat} {r : List Char}
    (h : inp.drop pos = objBytes w0 ps ++ r) (lfuel : Nat) (hfuel : ps.length ≤ lfuel)
    (s : ObjState T) :
    advancePastCommaSeparated lfuel '{' '}' (objParsePair o fuel) s ⟨inp, pos⟩ =
      some (.ok (foldPairs o ps s, ⟨inp, pos + (objBytes w0 ps).length⟩)) := by
  cases ps with
  | nil =>
    have h1 : inp.drop pos = '{' :: (w0 ++ ('}' :: r)) := by
      rw [h]
      simp [objBytes]
    have hbrace : advancePast (⟨inp, pos⟩ : DecCtx) '{' = .ok ⟨inp, pos + 1⟩ :=
      advancePast_drop h1
    have hd2 : inp.drop (pos + 1) = w0 ++ ('}' :: r) :=
      drop_shift (a := ['{']) (by simpa using h1)
    have hws : skipPastWhitespace (⟨inp, pos + 1⟩ : DecCtx) = ⟨inp, pos + 1 + w0.length⟩ :=
      skipWs_drop hd2 hw0 (by decide)
    have hd3 : inp.drop (pos + 1 + w0.length) = '}' :: r := drop_shift (a := w0) hd2
    unfold advancePastCommaSeparated
    simp only [hbrace, hws]
    rw [if_pos (peek_drop (c := ⟨inp, pos + 1 + w0.length⟩) hd3)]
    rw [objBytes_length_nil]
    simp [foldPairs]
    omega
  | cons p rest =>
    obtain ⟨⟨kt, hkb⟩, -, -, -, -, hwsB, -, -⟩ := hgood p (by simp)
    have h1 : inp.drop pos
        = '{' :: (w0 ++ (pairBytes p ++ (p.wsB ++ (pairTail rest ++ '}' :: r)))) := by
      rw [h]
      simp [objBytes]
    have hbrace : advancePast (⟨inp, pos⟩ : DecCtx) '{' = .ok ⟨inp, pos + 1⟩ :=
      advancePast_drop h1
    have hd2 : inp.drop (pos + 1)
        = w0 ++ (pairBytes p ++ (p.wsB ++ (pairTail rest ++ '}' :: r))) :=
      drop_shift (a := ['{']) (by simpa using h1)
    have hpbshape : pairBytes p ++ (p.wsB ++ (pairTail rest ++ '}' :: r))
        = '"' :: (kt ++ (p.w1 ++ (':' :: (p.w2 ++ (p.vb ++
            (p.wsB ++ (pairTail rest ++ '}' :: r))))))) := by
      simp [pairBytes, hkb]
    have hd2b := hd2
    rw [hpbshape] at hd2b
    have hws : skipPastWhitespace (⟨inp, pos + 1⟩ : DecCtx) = ⟨inp, pos + 1 + w0.length⟩ :=
      skipWs_drop hd2b hw0 (by decide)
    have hd3 : inp.drop (pos + 1 + w0.length)
        = pairBytes p ++ (p.wsB ++ (pairTail rest ++ '}' :: r)) := drop_shift (a := w0) hd2
    have hd3b := hd3
    rw [hpbshape] at hd3b
    have hpeek : peek (⟨inp, pos + 1 + w0.length⟩ : DecCtx) = '"' := peek_drop hd3b
    have hpair := objParsePair_drop (hgood p (by simp))
      (c := ⟨inp, pos + 1 + w0.length⟩) hd3 s
    have hd4 : inp.drop (pos + 1 + w0.length + (pairBytes p).length)
        = p.wsB ++ (pairTail rest ++ '}' :: r) := drop_shift (a := pairBytes p) hd3
    obtain ⟨ch2, r2, hch2, hch2ws⟩ := pairTail_head rest r
    have hd4b := hd4
    rw [hch2] at hd4b
    have hws2 : skipPastWhitespace
        (⟨inp, pos + 1 + w0.length + (pairBytes p).length⟩ : DecCtx)
        = ⟨inp, pos + 1 + w0.length + (pairBytes p).length + p.wsB.length⟩ :=
      skipWs_drop hd4b hwsB hch2ws
    have hd5 : inp.drop (pos + 1 + w0.length + (pairBytes p).length + p.wsB.length)
        = pairTail rest ++ '}' :: r := drop_shift (a := p.wsB) hd4
    have hloop := commaSepLoop_pairs (fun q hq => hgood q (by simp [hq])) hd5 lfuel
      (by simp only [List.length_cons] at hfuel; omega)
      (pairStep o p.key p.g s)
    unfold advancePastCommaSeparated
    simp only [hbrace, hws]
    rw [if_neg (by rw [hpeek]; decide)]
    simp only [hpair, hws2, hloop]
    rw [objBytes_length_cons]
    simp only [Option.some.injEq, Except.ok.injEq, Prod.mk.injEq, DecCtx.mk.injEq,
      foldPairs, List.foldl_cons, true_and, and_true, eq_self_iff_true]
    omega

/-- `object_t::decode` over a rendered JSON object: fold the pair
transformations from the constructed record and cleared bookkeeping,
then check `uniq_seen_required` against `_num_required_fields`,
failing with "Missing required field(s)" just after the closing
brace. -/
theorem objectDecodeF_render {T : Type} {o : ObjectT T} {fuel : Nat} {ps : List (PairItem T)}
    (hgood : ∀ p ∈ ps, GoodPair o fuel p) {w0 : List Char} (hw0 : ∀ x ∈ w0, isWsChar x)
    {inp : List Char} {pos : Nat} {r : List Char}
    (h : inp.drop pos = objBytes w0 ps ++ r) (hfuel : ps.length ≤ fuel) :
    objectDecodeF o fuel ⟨inp, pos⟩ =
      if (foldPairs o ps (o.construct, 0, 0)).2.2 = o.numRequired
      then some (.ok ((foldPairs o ps (o.construct, 0, 0)).1,
        ⟨inp, pos + (objBytes w0 ps).length⟩))
      else some (.error ⟨"Missing required field(s)",
        ((pos + (objBytes w0 ps).length : Nat) : Int)⟩) := by
  have hrun := advancePastCommaSeparated_pairs hgood hw0 h fuel hfuel (o.construct, 0, 0)
  rcases hst : foldPairs o ps (o.construct, 0, 0) with ⟨out, bs, uniq⟩
  rw [hst] at hrun
  unfold objectDecodeF
  simp only [hrun]
  by_cases huq : uniq = o.numRequired
  · rw [if_neg (by simpa using huq), if_pos (by simpa using huq)]
  · rw [if_pos (by simpa using huq), if_neg (by simpa using huq)]
    simp [decodeFail]

/-! ## Structure of a built object codec -/

theorem findField_cons {T : Type} (n : String) (f : Field T)
    (fs : List (String × Field T)) (k : String) :
    findField ((n, f) :: fs) k = if n = k then some f else findField fs k := by
  unfold findField
  by_cases h : n = k
  · rw [List.find?_cons_of_pos _ (by simpa using h), if_pos h]
  · rw [List.find?_cons_of_neg _ (by simpa using h), if_neg h]

theorem findField_nil {T : Type} (k : String) :
    findField ([] : List (String × Field T)) k = none := rfl

theorem saveField_found {T : Type} {o : ObjectT T} {name : String} {required : Bool}
    {f : Field T} (h : (findField o.fields name).isSome) :
    saveField o name required f = o := by
  unfold saveField
  rw [if_pos h]

theorem saveField_not_found {T : Type} {o : ObjectT T} {name : String} {required : Bool}
    {f : Field T} (h : ¬ (findField o.fields name).isSome) :
    saveField o name required f =
      { o with
        fields := (name, f) :: o.fields
        fieldList := o.fieldList ++ [(escapeKey name, f)]
        numRequired := o.numRequired + (if required then 1 else 0) } := by
  unfold saveField
  rw [if_neg h]

/-- The key-to-descriptor lookup a registration list produces, carrying
the running `_num_required_fields` value `n`. -/
def specFind {T : Type} (regs : List (Reg T)) (n : Nat) (k : String) : Option (Field T) :=
  match regs with
  | [] => none
  | r :: rest =>
    if r.name = k then some ⟨r.required, n, r.body⟩
    else specFind rest (n + (if r.required then 1 else 0)) k

/-- The ordered field list a registration list produces. -/
def specList {T : Type} (regs : List (Reg T)) (n : Nat) : List (String × Field T) :=
  match regs with
  | [] => []
  | r :: rest =>
    (escapeKey r.name, ⟨r.required, n, r.body⟩)
      :: specList rest (n + (if r.required then 1 else 0))

/-- Number of required registrations. -/
def countReq {T : Type} (regs : List (Reg T)) : Nat :=
  (regs.filter (·.required)).length

theorem specFind_not_mem {T : Type} {regs : List (Reg T)} {k : String}
    (h : k ∉ regs.map (·.name)) (n : Nat) : specFind regs n k = none := by
  induction regs generalizing n with
  | nil => rfl
  | cons r rest ih =>
    unfold specFind
    rw [if_neg (by simp at h; exact fun he => h.1 he.symm)]
    exact ih (by simp at h ⊢; exact fun q hq => h.2 q hq) _

theorem foldl_applyReg_construct {T : Type} (o : ObjectT T) (regs : List (Reg T)) :
    (regs.foldl applyReg o).construct = o.construct := by
  induction regs generalizing o with
  | nil => rfl
  | cons r rest ih =>
    rw [List.foldl_cons, ih]
    unfold applyReg saveField
    split <;> rfl

theorem foldl_applyReg_find {T : Type} (o : ObjectT T) (regs : List (Reg T))
    (hdisj : ∀ r ∈ regs, findField o.fields r.name = none)
    (hnd : (regs.map (·.name)).Nodup) (k : String) :
    findField (regs.foldl applyReg o).fields k =
      match specFind regs o.numRequired k with
      | some f => some f
      | none => findField o.fields k := by
  induction regs generalizing o with
  | nil => simp [specFind]
  | cons r rest ih =>
    rw [List.map_cons] at hnd
    obtain ⟨hnotin, hndrest⟩ := List.nodup_cons.mp hnd
    have hrn : findField o.fields r.name = none := hdisj r (by simp)
    have hsave : applyReg o r =
        { o with
          fields := (r.name, ⟨r.required, o.numRequired, r.body⟩) :: o.fields
          fieldList := o.fieldList
            ++ [(escapeKey r.name, ⟨r.required, o.numRequired, r.body⟩)]
          numRequired := o.numRequired + (if r.required then 1 else 0) } := by
      unfold applyReg
      exact saveField_not_found (by rw [hrn]; simp)
    rw [List.foldl_cons, hsave]
    have hrest : ∀ q ∈ rest, findField
        ((r.name, (⟨r.required, o.numRequired, r.body⟩ : Field T)) :: o.fields) q.name
          = none := by
      intro q hq
      rw [findField_cons, if_neg ?_]
      · exact hdisj q (by simp [hq])
      · intro he
        exact hnotin (he ▸ List.mem_map_of_mem (·.name) hq)
    have ihres := ih { o with
        fields := (r.name, ⟨r.required, o.numRequired, r.body⟩) :: o.fields
        fieldList := o.fieldList
          ++ [(escapeKey r.name, ⟨r.required, o.numRequired, r.body⟩)]
        numRequired := o.numRequired + (if r.required then 1 else 0) } hrest hndrest
    rw [ihres]
    show (match specFind rest (o.numRequired + (if r.required then 1 else 0)) k with
          | some f => some f
          | none => findField ((r.name,
              (⟨r.required, o.numRequired, r.body⟩ : Field T)) :: o.fields) k)
        = match specFind (r :: rest) o.numRequired k with
          | some f => some f
          | none => findField o.fields k
    by_cases hk : r.name = k
    · have hknot : k ∉ rest.map (·.name) := by
        rw [← hk]
        exact hnotin
      have hnone := specFind_not_mem hknot (o.numRequired + (if r.required then 1 else 0))
      simp only [hnone]
      rw [show specFind (r :: rest) o.numRequired k
          = some ⟨r.required, o.numRequired, r.body⟩ from by
        unfold specFind
        rw [if_pos hk]]
      rw [findField_cons, if_pos hk]
    · rw [show specFind (r :: rest) o.numRequired k
          = specFind rest (o.numRequired + (if r.required then 1 else 0)) k from by
        conv_lhs => unfold specFind
        rw [if_neg hk]]
      cases hsf : specFind rest (o.numRequired + (if r.required then 1 else 0)) k with
      | none =>
        simp only [hsf]
        rw [findField_cons, if_neg hk]
      | some f => simp only [hsf]

theorem foldl_applyReg_numRequired {T : Type} (o : ObjectT T) (regs : List (Reg T))
    (hdisj : ∀ r ∈ regs, findField o.fields r.name = none)
    (hnd : (regs.map (·.name)).Nodup) :
    (regs.foldl applyReg o).numRequired = o.numRequired + countReq regs := by
  induction regs generalizing o with
  | nil => simp [countReq]
  | cons r rest ih =>
    rw [List.map_cons] at hnd
    obtain ⟨hnotin, hndrest⟩ := List.nodup_cons.mp hnd
    have hrn : findField o.fields r.name = none := hdisj r (by simp)
    have hsave : applyReg o r =
        { o with
          fields := (r.name, ⟨r.required, o.numRequired, r.body⟩) :: o.fields
          fieldList := o.fieldList
            ++ [(escapeKey r.name, ⟨r.required, o.numRequired, r.body⟩)]
          numRequired := o.numRequired + (if r.required then 1 else 0) } := by
      unfold applyReg
      exact saveField_not_found (by rw [hrn]; simp)
    rw [List.foldl_cons, hsave]
    have hrest : ∀ q ∈ rest, findField
        ((r.name, (⟨r.required, o.numRequired, r.body⟩ : Field T)) :: o.fields) q.name
          = none := by
      intro q hq
      rw [findField_cons, if_neg ?_]
      · exact hdisj q (by simp [hq])
      · intro he
        exact hnotin (he ▸ List.mem_map_of_mem (·.name) hq)
    rw [ih _ hrest hndrest]
    show o.numRequired + (if r.required then 1 else 0) + countReq rest
        = o.numRequired + countReq (r :: rest)
    unfold countReq
    by_cases hr : r.required
    · rw [List.filter_cons_of_pos (by simpa using hr), if_pos hr, List.length_cons]
      omega
    · rw [List.filter_cons_of_neg (by simpa using hr), if_neg hr]
      omega

theorem foldl_applyReg_fieldList {T : Type} (o : ObjectT T) (regs : List (Reg T))
    (hdisj : ∀ r ∈ regs, findField o.fields r.name = none)
    (hnd : (regs.map (·.name)).Nodup) :
    (regs.foldl applyReg o).fieldList = o.fieldList ++ specList regs o.numRequired := by
  induction regs generalizing o with
  | nil => simp [specList]
  | cons r rest ih =>
    rw [List.map_cons] at hnd
    obtain ⟨hnotin, hndrest⟩ := List.nodup_cons.mp hnd
    have hrn : findField o.fields r.name = none := hdisj r (by simp)
    have hsave : applyReg o r =
        { o with
          fields := (r.name, ⟨r.required, o.numRequired, r.body⟩) :: o.fields
          fieldList := o.fieldList
            ++ [(escapeKey r.name, ⟨r.required, o.numRequired, r.body⟩)]
          numRequired := o.numRequired + (if r.required then 1 else 0) } := by
      unfold applyReg
      exact saveField_not_found (by rw [hrn]; simp)
    rw [List.foldl_cons, hsave]
    have hrest : ∀ q ∈ rest, findField
        ((r.name, (⟨r.required, o.numRequired, r.body⟩ : Field T)) :: o.fields) q.name
          = none := by
      intro q hq
      rw [findField_cons, if_neg ?_]
      · exact hdisj q (by simp [hq])
      · intro he
        exact hnotin (he ▸ List.mem_map_of_mem (·.name) hq)
    rw [ih _ hrest hndrest]
    show (o.fieldList ++ [(escapeKey r.name, ⟨r.required, o.numRequired, r.body⟩)])
        ++ specList rest (o.numRequired + (if r.required then 1 else 0))
      = o.fieldList ++ specList (r :: rest) o.numRequired
    rw [List.append_assoc]
    rfl

/-! ## Required-field bookkeeping of the decode fold -/

/-- The required-field index a key addresses in an object codec, if
any. -/
def requiredIdxOf {T : Type} (o : ObjectT T) (k : String) : Option Nat :=
  match findField o.fields k with
  | some f => if f.required then some f.reqIdx else none
  | none => none

/-- The set of required indices addressed by a list of decoded pairs. -/
def pairIdxSet {T : Type} (o : ObjectT T) (ps : List (PairItem T)) : Finset Nat :=
  (ps.filterMap (fun p => requiredIdxOf o p.key)).toFinset

/-- Along the decode fold, the bitset is the set of required indices
seen so far and `uniq_seen_required` is its cardinality. -/
theorem foldPairs_stats {T : Type} (o : ObjectT T) (ps : List (PairItem T)) :
    ∀ (out : T) (bs uniq : Nat) (S : Finset Nat),
    (∀ i, bs.testBit i = true ↔ i ∈ S) → uniq = S.card →
    (∀ i, (foldPairs o ps (out, bs, uniq)).2.1.testBit i = true
        ↔ i ∈ S ∪ pairIdxSet o ps) ∧
      (foldPairs o ps (out, bs, uniq)).2.2 = (S ∪ pairIdxSet o ps).card := by
  induction ps with
  | nil =>
    intro out bs uniq S hbs hu
    constructor
    · intro i
      simpa [foldPairs, pairIdxSet] using hbs i
    · simpa [foldPairs, pairIdxSet] using hu
  | cons p rest ih =>
    intro out bs uniq S hbs hu
    have hfold : foldPairs o (p :: rest) (out, bs, uniq)
        = foldPairs o rest (pairStep o p.key p.g (out, bs, uniq)) := rfl
    cases hf : findField o.fields p.key with
    | none =>
      have hstep : pairStep o p.key p.g (out, bs, uniq) = (out, bs, uniq) := by
        simp [pairStep, hf]
      have hidx : requiredIdxOf o p.key = none := by
        simp [requiredIdxOf, hf]
      have hset : pairIdxSet o (p :: rest) = pairIdxSet o rest := by
        unfold pairIdxSet
        simp only [List.filterMap_cons, hidx]
      rw [hfold, hstep, hset]
      exact ih out bs uniq S hbs hu
    | some f =>
      by_cases hreq : f.required
      · have hstep : pairStep o p.key p.g (out, bs, uniq)
            = (p.g out, bs ||| (1 <<< f.reqIdx),
                uniq + (if bs.testBit f.reqIdx then 0 else 1)) := by
          simp [pairStep, hf, hreq]
        have hidx : requiredIdxOf o p.key = some f.reqIdx := by
          simp [requiredIdxOf, hf, hreq]
        have hset : pairIdxSet o (p :: rest) = insert f.reqIdx (pairIdxSet o rest) := by
          unfold pairIdxSet
          simp only [List.filterMap_cons, hidx, List.toFinset_cons]
        have hbs2 : ∀ i, (bs ||| (1 <<< f.reqIdx)).testBit i = true
            ↔ i ∈ insert f.reqIdx S := by
          intro i
          rw [Nat.testBit_or, Nat.one_shiftLeft, Nat.testBit_two_pow]
          rw [Finset.mem_insert]
          rw [Bool.or_eq_true, decide_eq_true_eq]
          rw [hbs i]
          constructor
          · rintro (h1 | h2)
            · exact Or.inr h1
            · exact Or.inl h2.symm
          · rintro (h1 | h2)
            · exact Or.inr h1.symm
            · exact Or.inl h2
        have hu2 : uniq + (if bs.testBit f.reqIdx then 0 else 1)
            = (insert f.reqIdx S).card := by
          by_cases hmem : f.reqIdx ∈ S
          · rw [if_pos ((hbs _).mpr hmem), Finset.insert_eq_self.mpr hmem]
            omega
          · have hbit : bs.testBit f.reqIdx = false := by
              cases hcase : bs.testBit f.reqIdx
              · rfl
              · exact absurd ((hbs _).mp hcase) hmem
            rw [hbit, if_neg (by simp), Finset.card_insert_of_not_mem hmem]
            omega
        obtain ⟨ihb, ihu⟩ := ih (p.g out) _ _ (insert f.reqIdx S) hbs2 hu2
        rw [hfold, hstep, hset]
        have hsets : insert f.reqIdx S ∪ pairIdxSet o rest
            = S ∪ insert f.reqIdx (pairIdxSet o rest) := by
          rw [Finset.insert_union, Finset.union_insert]
        constructor
        · intro i
          rw [← hsets]
          exact ihb i
        · rw [← hsets]
          exact ihu
      · have hstep : pairStep o p.key p.g (out, bs, uniq) = (p.g out, bs, uniq) := by
          simp [pairStep, hf, hreq]
        have hidx : requiredIdxOf o p.key = none := by
          simp [requiredIdxOf, hf, hreq]
        have hset : pairIdxSet o (p :: rest) = pairIdxSet o rest := by
          unfold pairIdxSet
          simp only [List.filterMap_cons, hidx]
        rw [hfold, hstep, hset]
        exact ih (p.g out) bs uniq S hbs hu

/-! ## Required-index lists of a registration sequence -/

/-- The required-field index a key addresses according to a
registration list with running counter `n`. -/
def specReqIdx {T : Type} (regs : List (Reg T)) (n : Nat) (k : String) : Option Nat :=
  match specFind regs n k with
  | some f => if f.required then some f.reqIdx else none
  | none => none

/-- The required indices of the registrations whose key occurs in
`keys`, with running counter `n`. -/
def reqIdxList {T : Type} (regs : List (Reg T)) (n : Nat) (keys : List String) : List Nat :=
  match regs with
  | [] => []
  | r :: rest =>
    if r.required = true ∧ r.name ∈ keys
    then n :: reqIdxList rest (n + 1) keys
    else reqIdxList rest (n + (if r.required then 1 else 0)) keys

theorem specReqIdx_cons {T : Type} (r : Reg T) (rest : List (Reg T)) (n : Nat) (k : String) :
    specReqIdx (r :: rest) n k
      = if r.name = k then (if r.required then some n else none)
        else specReqIdx rest (n + (if r.required then 1 else 0)) k := by
  unfold specReqIdx
  conv_lhs => rw [specFind]
  by_cases hk : r.name = k
  · rw [if_pos hk, if_pos hk]
  · rw [if_neg hk, if_neg hk]

theorem mem_reqIdxList_ge {T : Type} {regs : List (Reg T)} {keys : List String} :
    ∀ {n i : Nat}, i ∈ reqIdxList regs n keys → n ≤ i := by
  induction regs with
  | nil => intro n i h; simp [reqIdxList] at h
  | cons r rest ih =>
    intro n i h
    unfold reqIdxList at h
    split at h
    · rcases List.mem_cons.mp h with h1 | h2
      · omega
      · have := ih h2
        omega
    · have := ih h
      split at this <;> omega

theorem reqIdxList_nodup {T : Type} (regs : List (Reg T)) (keys : List String) :
    ∀ n, (reqIdxList regs n keys).Nodup := by
  induction regs with
  | nil => intro n; simp [reqIdxList]
  | cons r rest ih =>
    intro n
    unfold reqIdxList
    split
    · refine List.nodup_cons.mpr ⟨?_, ih (n + 1)⟩
      intro hmem
      have := mem_reqIdxList_ge hmem
      omega
    · exact ih _

theorem countReq_cons {T : Type} (r : Reg T) (rest : List (Reg T)) :
    countReq (r :: rest) = (if r.required then 1 else 0) + countReq rest := by
  unfold countReq
  by_cases hr : r.required
  · rw [List.filter_cons_of_pos (by simpa using hr), if_pos hr, List.length_cons]
    omega
  · rw [List.filter_cons_of_neg (by simpa using hr), if_neg hr]
    omega

theorem reqIdxList_length_le {T : Type} (regs : List (Reg T)) (keys : List String) :
    ∀ n, (reqIdxList regs n keys).length ≤ countReq regs := by
  induction regs with
  | nil =>
    intro n
    simp [reqIdxList, countReq]
  | cons r rest ih =>
    intro n
    rw [countReq_cons]
    unfold reqIdxList
    split
    · rename_i hcond
      rw [List.length_cons, if_pos hcond.1]
      have h2 := ih (n + 1)
      omega
    · split
      · have h2 := ih (n + 1)
        omega
      · have h2 := ih (n + 0)
        omega

theorem reqIdxList_length_eq_iff {T : Type} (regs : List (Reg T)) (keys : List String) :
    ∀ n, ((reqIdxList regs n keys).length = countReq regs
      ↔ ∀ r ∈ regs, r.required = true → r.name ∈ keys) := by
  induction regs with
  | nil =>
    intro n
    simp [reqIdxList, countReq]
  | cons r rest ih =>
    intro n
    rw [countReq_cons]
    unfold reqIdxList
    split
    · rename_i hcond
      rw [List.length_cons, if_pos hcond.1]
      constructor
      · intro hlen q hq hqr
        rcases List.mem_cons.mp hq with h1 | h2
        · rw [h1]
          exact hcond.2
        · exact ((ih (n + 1)).mp (by omega)) q h2 hqr
      · intro hall
        have := (ih (n + 1)).mpr (fun q hq hqr => hall q (by simp [hq]) hqr)
        omega
    · rename_i hcond
      by_cases hr : r.required = true
      · have hnk : r.name ∉ keys := fun hk => hcond ⟨hr, hk⟩
        rw [if_pos hr]
        constructor
        · intro hlen
          exfalso
          have hle := reqIdxList_length_le rest keys (n + 1)
          omega
        · intro hall
          exact absurd (hall r (by simp) hr) hnk
      · rw [if_neg hr]
        constructor
        · intro hlen q hq hqr
          rcases List.mem_cons.mp hq with h1 | h2
          · rw [h1] at hqr
            exact absurd hqr hr
          · exact ((ih (n + 0)).mp (by omega)) q h2 hqr
        · intro hall
          have := (ih (n + 0)).mpr (fun q hq hqr => hall q (by simp [hq]) hqr)
          omega

theorem specReqIdx_not_mem {T : Type} {regs : List (Reg T)} {k : String}
    (h : k ∉ regs.map (·.name)) (n : Nat) : specReqIdx regs n k = none := by
  unfold specReqIdx
  rw [specFind_not_mem h]

theorem mem_reqIdxList_iff {T : Type} {regs : List (Reg T)}
    (hnd : (regs.map (·.name)).Nodup) (keys : List String) :
    ∀ n i, (i ∈ reqIdxList regs n keys ↔ ∃ k ∈ keys, specReqIdx regs n k = some i) := by
  induction regs with
  | nil =>
    intro n i
    simp [reqIdxList, specReqIdx, specFind]
  | cons r rest ih =>
    rw [List.map_cons] at hnd
    obtain ⟨hnotin, hndrest⟩ := List.nodup_cons.mp hnd
    intro n i
    unfold reqIdxList
    constructor
    · intro hmem
      split at hmem
      · rename_i hcond
        rcases List.mem_cons.mp hmem with h1 | h2
        · refine ⟨r.name, hcond.2, ?_⟩
          rw [specReqIdx_cons, if_pos rfl, if_pos hcond.1, h1]
        · obtain ⟨k, hk, hsk⟩ := (ih hndrest (n + 1) i).mp h2
          have hrk : r.name ≠ k := by
            intro he
            rw [← he, specReqIdx_not_mem hnotin] at hsk
            exact absurd hsk (by simp)
          refine ⟨k, hk, ?_⟩
          rw [specReqIdx_cons, if_neg hrk, if_pos hcond.1]
          exact hsk
      · rename_i hcond
        obtain ⟨k, hk, hsk⟩ :=
          (ih hndrest (n + (if r.required then 1 else 0)) i).mp hmem
        have hrk : r.name ≠ k := by
          intro he
          rw [← he, specReqIdx_not_mem hnotin] at hsk
          exact absurd hsk (by simp)
        refine ⟨k, hk, ?_⟩
        rw [specReqIdx_cons, if_neg hrk]
        exact hsk
    · rintro ⟨k, hk, hsk⟩
      rw [specReqIdx_cons] at hsk
      by_cases hrk : r.name = k
      · rw [if_pos hrk] at hsk
        by_cases hr : r.required = true
        · rw [if_pos hr] at hsk
          injection hsk with hni
          have hcond : r.required = true ∧ r.name ∈ keys := ⟨hr, hrk ▸ hk⟩
          rw [if_pos hcond]
          exact List.mem_cons.mpr (Or.inl hni.symm)
        · -- r.required is a Bool; `if r.required then _ else _` with r.required false
          rw [if_neg hr] at hsk
          exact absurd hsk (by simp)
      · rw [if_neg hrk] at hsk
        split
        · rename_i hcond
          refine List.mem_cons.mpr (Or.inr ?_)
          rw [if_pos hcond.1] at hsk
          exact (ih hndrest (n + 1) i).mpr ⟨k, hk, hsk⟩
        · exact (ih hndrest (n + (if r.required then 1 else 0)) i).mpr ⟨k, hk, hsk⟩

theorem requiredIdxOf_buildObj {T : Type} (t0 : T) (regs : List (Reg T))
    (hnd : (regs.map (·.name)).Nodup) (k : String) :
    requiredIdxOf (buildObj t0 regs) k = specReqIdx regs 0 k := by
  have hfind := foldl_applyReg_find (emptyObj t0) regs
    (fun r hr => rfl) hnd k
  unfold requiredIdxOf specReqIdx
  rw [show buildObj t0 regs = regs.foldl applyReg (emptyObj t0) from rfl, hfind]
  show (match (match specFind regs 0 k with
        | some f => some f
        | none => findField (emptyObj t0).fields k) with
      | some f => if f.required = true then some f.reqIdx else none
      | none => none)
    = match specFind regs 0 k with
      | some f => if f.required = true then some f.reqIdx else none
      | none => none
  cases specFind regs 0 k with
  | none => rfl
  | some f => rfl

theorem pairIdxSet_buildObj {T : Type} (t0 : T) (regs : List (Reg T))
    (hnd : (regs.map (·.name)).Nodup) (ps : List (PairItem T)) :
    pairIdxSet (buildObj t0 regs) ps
      = (reqIdxList regs 0 (ps.map (·.key))).toFinset := by
  ext i
  unfold pairIdxSet
  rw [List.mem_toFinset, List.mem_toFinset, List.mem_filterMap]
  rw [mem_reqIdxList_iff hnd (ps.map (·.key)) 0 i]
  constructor
  · rintro ⟨p, hp, hpi⟩
    refine ⟨p.key, List.mem_map_of_mem _ hp, ?_⟩
    rw [← requiredIdxOf_buildObj t0 regs hnd]
    exact hpi
  · rintro ⟨k, hk, hsk⟩
    obtain ⟨p, hp, hpk⟩ := List.mem_map.mp hk
    refine ⟨p, hp, ?_⟩
    rw [requiredIdxOf_buildObj t0 regs hnd, hpk]
    exact hsk

theorem pairIdxSet_buildObj_card {T : Type} (t0 : T) (regs : List (Reg T))
    (hnd : (regs.map (·.name)).Nodup) (ps : List (PairItem T)) :
    (pairIdxSet (buildObj t0 regs) ps).card
      = (reqIdxList regs 0 (ps.map (·.key))).length := by
  rw [pairIdxSet_buildObj t0 regs hnd ps]
  exact List.toFinset_card_of_nodup (reqIdxList_nodup regs (ps.map (·.key)) 0)

/-! ## The record component of the decode fold -/

/-- The record transformation one pair performs: unknown keys leave the
record unchanged; registered keys run the field transform. -/
def outStep {T : Type} (o : ObjectT T) (k : String) (g : T → T) (t : T) : T :=
  match findField o.fields k with
  | none => t
  | some _ => g t

theorem foldPairs_fst {T : Type} (o : ObjectT T) (ps : List (PairItem T)) :
    ∀ (out : T) (bs uniq : Nat),
    (foldPairs o ps (out, bs, uniq)).1
      = ps.foldl (fun t p => outStep o p.key p.g t) out := by
  induction ps with
  | nil =>
    intro out bs uniq
    rfl
  | cons p rest ih =>
    intro out bs uniq
    have hfold : foldPairs o (p :: rest) (out, bs, uniq)
        = foldPairs o rest (pairStep o p.key p.g (out, bs, uniq)) := rfl
    rw [hfold, List.foldl_cons]
    cases hf : findField o.fields p.key with
    | none =>
      have h1 : pairStep o p.key p.g (out, bs, uniq) = (out, bs, uniq) := by
        simp [pairStep, hf]
      have h2 : outStep o p.key p.g out = out := by
        simp [outStep, hf]
      rw [h1, h2]
      exact ih out bs uniq
    | some f =>
      by_cases hreq : f.required
      · have h1 : pairStep o p.key p.g (out, bs, uniq)
            = (p.g out, bs ||| (1 <<< f.reqIdx),
                uniq + (if bs.testBit f.reqIdx then 0 else 1)) := by
          simp [pairStep, hf, hreq]
        have h2 : outStep o p.key p.g out = p.g out := by
          simp [outStep, hf]
        rw [h1, h2]
        exact ih _ _ _
      · have h1 : pairStep o p.key p.g (out, bs, uniq) = (p.g out, bs, uniq) := by
          simp [pairStep, hf, hreq]
        have h2 : outStep o p.key p.g out = p.g out := by
          simp [outStep, hf]
        rw [h1, h2]
        exact ih _ _ _

/-- A pair leaves the value read by `get` unchanged. -/
def KeepsGet {T α : Type} (o : ObjectT T) (get : T → α) (p : PairItem T) : Prop :=
  ∀ t, get (outStep o p.key p.g t) = get t

/-- A pair writes the value `v` into the component read by `get`. -/
def WritesGet {T α : Type} (o : ObjectT T) (get : T → α) (p : PairItem T) (v : α) : Prop :=
  ∀ t, get (outStep o p.key p.g t) = v

/-- Alignment between the decoded pairs and the sequence of values
written to one record component. -/
inductive Writes {T α : Type} (o : ObjectT T) (get : T → α) :
    List (PairItem T) → List α → Prop where
  | nil : Writes o get [] []
  | keep {p ps vs} : KeepsGet o get p → Writes o get ps vs → Writes o get (p :: ps) vs
  | put {p ps v vs} : WritesGet o get p v → Writes o get ps vs →
      Writes o get (p :: ps) (v :: vs)

theorem getLast_getD_cons {α : Type} (v : α) (vs : List α) (d : α) :
    (v :: vs).getLast?.getD d = vs.getLast?.getD v := by
  induction vs generalizing v d with
  | nil => rfl
  | cons w ws ih =>
    rw [List.getLast?_cons_cons]
    rw [ih w d, ih w v]

/-- Each occurrence overwrites: after the fold, the component holds the
last written value (or the initial one when nothing was written). -/
theorem writes_fold_get {T α : Type} {o : ObjectT T} {get : T → α}
    {ps : List (PairItem T)} {vs : List α} (hw : Writes o get ps vs) :
    ∀ t, get (ps.foldl (fun t p => outStep o p.key p.g t) t)
      = vs.getLast?.getD (get t) := by
  induction hw with
  | nil =>
    intro t
    rfl
  | keep hk _ ih =>
    intro t
    rw [List.foldl_cons, ih, hk t]
  | put hp _ ih =>
    intro t
    rw [List.foldl_cons, ih, hp t, getLast_getD_cons]

/-! ## The encode side -/

/-- Comma-joined parts (the compact rendering of the emitted fields). -/
def joinComma : List (List Char) → List Char
  | [] => []
  | [p] => p
  | p :: q :: rest => p ++ ',' :: joinComma (q :: rest)

/-- The codec's encode deterministically appends `e x` to the buffer. -/
def EncAppends {α : Type} (codec : Codec α) (e : α → List Char) : Prop :=
  ∀ buf x, codec.encode buf x = .ok (buf ++ e x)

/-- `member_var_field::encode` skips the field entirely when the child
codec's `should_encode` is false. -/
theorem memberVarBody_fencode_skip {T α : Type} (codec : Codec α) (get : T → α)
    (set : T → α → T) (v : T) (hse : codec.shouldEncode (get v) = false) :
    ∀ ek buf, (memberVarBody codec get set).fencode buf ek v = .ok buf := by
  intro ek buf
  simp [memberVarBody, hse]

/-- `member_var_field::encode` appends the cached escaped key, the child
encoding and `','` when `should_encode` holds. -/
theorem memberVarBody_fencode_emit {T α : Type} (codec : Codec α) (get : T → α)
    (set : T → α → T) (e : α → List Char) (he : EncAppends codec e) (v : T)
    (hse : codec.shouldEncode (get v) = true) :
    ∀ ek buf, (memberVarBody codec get set).fencode buf ek v
      = .ok (buf ++ ((ek.data ++ e (get v)) ++ [','])) := by
  intro ek buf
  simp [memberVarBody, hse, he (buf ++ ek.data) (get v), List.append_assoc]

/-- `dummy_field::encode` skips when the default-constructed sentinel's
`should_encode` is false. -/
theorem dummyBody_fencode_skip {T α : Type} (codec : Codec α) (dv : α) (v : T)
    (hse : codec.shouldEncode dv = false) :
    ∀ ek buf, (dummyBody codec dv : FieldBody T).fencode buf ek v = .ok buf := by
  intro ek buf
  simp [dummyBody, hse]

/-- `dummy_field::encode` emits the default-constructed sentinel when
its `should_encode` holds. -/
theorem dummyBody_fencode_emit {T α : Type} (codec : Codec α) (dv : α)
    (e : α → List Char) (he : EncAppends codec e) (v : T)
    (hse : codec.shouldEncode dv = true) :
    ∀ ek buf, (dummyBody codec dv : FieldBody T).fencode buf ek v
      = .ok (buf ++ ((ek.data ++ e dv) ++ [','])) := by
  intro ek buf
  simp [dummyBody, hse, he (buf ++ ek.data) dv, List.append_assoc]

/-- Per-field behaviour of `object_t::encode` on the value `v`: each
descriptor either appends nothing, or appends its chunk followed by a
comma. -/
inductive EmitsList {T : Type} (v : T) :
    List (String × Field T) → List (List Char) → Prop where
  | nil : EmitsList v [] []
  | skip {ek : String} {f : Field T} {rest cs} :
      (∀ buf, f.body.fencode buf ek v = .ok buf) →
      EmitsList v rest cs → EmitsList v ((ek, f) :: rest) cs
  | emit {ek : String} {f : Field T} {rest cs} {chunk : List Char} :
      (∀ buf, f.body.fencode buf ek v = .ok (buf ++ (chunk ++ [',']))) →
      EmitsList v rest cs → EmitsList v ((ek, f) :: rest) (chunk :: cs)

theorem encodeFields_emits {T : Type} {v : T} {fl : List (String × Field T)}
    {cs : List (List Char)} (h : EmitsList v fl cs) :
    ∀ buf, encodeFields v fl buf
      = .ok (buf ++ (cs.map (fun p => p ++ [','])).flatten) := by
  induction h with
  | nil =>
    intro buf
    simp [encodeFields]
  | skip hs _ ih =>
    intro buf
    unfold encodeFields
    simp only [hs buf, ih]
  | emit hs _ ih =>
    intro buf
    unfold encodeFields
    simp only [hs buf, ih]
    simp [List.append_assoc]

theorem flatten_comma (parts : List (List Char)) (hne : parts ≠ []) :
    (parts.map (fun p => p ++ [','])).flatten = joinComma parts ++ [','] := by
  induction parts with
  | nil => exact absurd rfl hne
  | cons p rest ih =>
    cases rest with
    | nil => simp [joinComma]
    | cons q rest2 =>
      rw [List.map_cons, List.flatten_cons, ih (by simp)]
      show p ++ [','] ++ (joinComma (q :: rest2) ++ [','])
        = (p ++ ',' :: joinComma (q :: rest2)) ++ [',']
      simp [List.append_assoc]

/-- `append_or_replace(',', '}')` turns the comma-terminated chunk
sequence into a compact object; with no chunks it appends `'}'` after
the `'{'`, yielding an empty object. -/
theorem appendOrReplace_join (buf : List Char) (parts : List (List Char)) :
    appendOrReplace (buf ++ '{' :: (parts.map (fun p => p ++ [','])).flatten) ',' '}'
      = buf ++ '{' :: (joinComma parts ++ ['}']) := by
  cases parts with
  | nil =>
    unfold appendOrReplace
    rw [if_neg ?_]
    · simp [joinComma]
    · rw [show buf ++ '{' :: (([] : List (List Char)).map
          (fun p => p ++ [','])).flatten = (buf ++ ['{']) ++ ['{'].dropLast from by simp]
      simp [List.getLast?_concat]
  | cons p rest =>
    rw [flatten_comma _ (by simp)]
    have hsplit : buf ++ '{' :: (joinComma (p :: rest) ++ [','])
        = (buf ++ '{' :: joinComma (p :: rest)) ++ [','] := by
      simp
    unfold appendOrReplace
    rw [hsplit, if_pos (by rw [List.getLast?_concat]), List.dropLast_concat]
    simp

/-- `object_t::encode` over an emits-description of the fields: `'{'`,
the comma-joined chunks, `'}'`. -/
theorem objectEncode_emits {T : Type} {o : ObjectT T} {v : T} {cs : List (List Char)}
    (h : EmitsList v o.fieldList cs) (buf : List Char) :
    objectEncode o buf v = .ok (buf ++ '{' :: (joinComma cs ++ ['}'])) := by
  unfold objectEncode
  simp only [encodeFields_emits h (buf ++ ['{'])]
  rw [show (buf ++ ['{']) ++ (cs.map (fun p => p ++ [','])).flatten
      = buf ++ '{' :: (cs.map (fun p => p ++ [','])).flatten from by simp]
  rw [appendOrReplace_join]

/-! ## Field decoding through accessors -/

theorem memberVarBody_fieldConsumes {T α : Type} (codec : Codec α) (get : T → α)
    (set : T → α → T) {bytes : List Char} {v : α} (hd : DecConsumes codec.decode bytes v) :
    FieldConsumes (memberVarBody codec get set).fdecode bytes (fun t => set t v) := by
  intro pre post out
  show (match codec.decode ⟨pre ++ bytes ++ post, pre.length⟩ with
    | Except.error e => (Except.error e : Except DecodeErr (T × DecCtx))
    | Except.ok (w, c1) => Except.ok (set out w, c1))
    = Except.ok (set out v, ⟨pre ++ bytes ++ post, pre.length + bytes.length⟩)
  rw [hd pre post]

theorem dummyBody_fieldConsumes {T α : Type} (codec : Codec α) (dv : α)
    {bytes : List Char} {v : α} (hd : DecConsumes codec.decode bytes v) :
    FieldConsumes ((dummyBody codec dv : FieldBody T)).fdecode bytes (fun t => t) := by
  intro pre post out
  show (match codec.decode ⟨pre ++ bytes ++ post, pre.length⟩ with
    | Except.error e => (Except.error e : Except DecodeErr (T × DecCtx))
    | Except.ok (_, c1) => Except.ok (out, c1))
    = Except.ok (out, ⟨pre ++ bytes ++ post, pre.length + bytes.length⟩)
  rw [hd pre post]

/-! ## Termination and cursor bounds of the comma-separated driver -/

theorem advancePast_ok {c : DecCtx} {x : Char} {c1 : DecCtx}
    (h : advancePast c x = .ok c1) :
    c1.input = c.input ∧ c1.pos = c.pos + 1 ∧ c.pos < c.input.length := by
  unfold advancePast at h
  cases hn : next c "Unexpected end of input" with
  | error e =>
    rw [hn] at h
    exact absurd h (by simp)
  | ok p =>
    obtain ⟨got, c2⟩ := p
    obtain ⟨hi, hp, hl, _⟩ := next_ok hn
    rw [hn] at h
    simp only at h
    split at h
    · simp [decodeFail] at h
    · obtain rfl : c2 = c1 := by simpa using h
      exact ⟨hi, hp, hl⟩

theorem skipWs_input (c : DecCtx) : (skipPastWhitespace c).input = c.input := rfl

theorem skipWs_pos_le (c : DecCtx) : c.pos ≤ (skipPastWhitespace c).pos :=
  Nat.le_add_right _ _

/-- The documented precondition on the element parser of
`advance_past_comma_separated`: each invocation terminates, and on
success it has advanced the cursor past at least one byte of the same
input. -/
def ParseAdvances {σ : Type}
    (parse : σ → DecCtx → Option (Except DecodeErr (σ × DecCtx))) : Prop :=
  ∀ s c, parse s c ≠ none ∧
    ∀ s2 c2, parse s c = some (.ok (s2, c2)) → c2.input = c.input ∧ c.pos < c2.pos

theorem commaSepLoop_total {σ : Type} (outro : Char)
    {parse : σ → DecCtx → Option (Except DecodeErr (σ × DecCtx))}
    (hp : ParseAdvances parse) :
    ∀ fuel (s : σ) (c : DecCtx), c.input.length + 1 - c.pos < fuel →
      commaSepLoop outro parse fuel s c ≠ none := by
  intro fuel
  induction fuel with
  | zero =>
    intro s c h
    omega
  | succ f ih =>
    intro s c hb
    unfold commaSepLoop
    split
    · simp
    · cases hadv : advancePast c ',' with
      | error e => simp [hadv]
      | ok c1 =>
        obtain ⟨hi1, hp1, hl1⟩ := advancePast_ok hadv
        simp only [hadv]
        cases hps : parse s (skipPastWhitespace c1) with
        | none => exact absurd hps (hp s (skipPastWhitespace c1)).1
        | some res =>
          cases res with
          | error e => simp [hps]
          | ok p =>
            obtain ⟨s2, c2⟩ := p
            obtain ⟨hi2, hp2⟩ := (hp s (skipPastWhitespace c1)).2 s2 c2 hps
            simp only [hps]
            refine ih s2 (skipPastWhitespace c2) ?_
            have hle1 := skipWs_pos_le c1
            have hle2 := skipWs_pos_le c2
            have hlen2 : (skipPastWhitespace c2).input = c.input := by
              rw [skipWs_input, hi2, skipWs_input, hi1]
            rw [hlen2]
            omega

/-- Full termination of `advance_past_comma_separated` under the parse
contract. -/
theorem advancePastCommaSeparated_total {σ : Type} {intro outro : Char}
    {parse : σ → DecCtx → Option (Except DecodeErr (σ × DecCtx))}
    (hp : ParseAdvances parse) (fuel : Nat) (s : σ) (c : DecCtx)
    (hf : c.input.length < fuel) :
    advancePastCommaSeparated fuel intro outro parse s c ≠ none := by
  unfold advancePastCommaSeparated
  cases hadv : advancePast c intro with
  | error e => simp [hadv]
  | ok c1 =>
    obtain ⟨hi1, hp1, hl1⟩ := advancePast_ok hadv
    simp only [hadv]
    split
    · simp
    · cases hps : parse s (skipPastWhitespace c1) with
      | none => exact absurd hps (hp s (skipPastWhitespace c1)).1
      | some res =>
        cases res with
        | error e => simp [hps]
        | ok p =>
          obtain ⟨s2, c3⟩ := p
          obtain ⟨hi2, hp2⟩ := (hp s (skipPastWhitespace c1)).2 s2 c3 hps
          simp only [hps]
          have hloop := commaSepLoop_total outro hp fuel s2 (skipPastWhitespace c3) ?_
          · cases hcl : commaSepLoop outro parse fuel s2 (skipPastWhitespace c3) with
            | none => exact absurd hcl hloop
            | some res2 =>
              cases res2 with
              | error e => simp [hcl]
              | ok p2 =>
                obtain ⟨s4, c4⟩ := p2
                simp [hcl]
          · have hle1 := skipWs_pos_le c1
            have hle3 := skipWs_pos_le c3
            have hlen3 : (skipPastWhitespace c3).input = c.input := by
              rw [skipWs_input, hi2, skipWs_input, hi1]
            rw [hlen3]
            omega

/-- The trailing-comma scenario: the cursor is on a `','` that is
followed, after whitespace, by `outro`; the loop hands the `outro`
byte to the parse callback, which rejects it, so the whole decode
fails. -/
theorem commaSepLoop_trailing {σ : Type} {outro : Char}
    {parse : σ → DecCtx → Option (Except DecodeErr (σ × DecCtx))}
    (hrej : ∀ (s : σ) (c : DecCtx), peek c = outro → ∃ e, parse s c = some (.error e))
    (hco : ',' ≠ outro) {c : DecCtx} (hpc : peek c = ',')
    (hpo : peek (skipPastWhitespace ⟨c.input, c.pos + 1⟩) = outro)
    (fuel : Nat) (hf : 1 ≤ fuel) (s : σ) :
    ∃ e, commaSepLoop outro parse fuel s c = some (.error e) := by
  obtain ⟨f, rfl⟩ : ∃ f, fuel = f + 1 := ⟨fuel - 1, by omega⟩
  have hrem : 0 < c.remaining := by
    by_contra hnr
    unfold peek at hpc
    rw [if_neg hnr] at hpc
    exact absurd hpc (by decide)
  have hgot : c.input.getD c.pos nullChar = ',' := by
    unfold peek at hpc
    rw [if_pos hrem] at hpc
    exact hpc
  have hnext : next c "Unexpected end of input"
      = .ok (c.input.getD c.pos nullChar, ⟨c.input, c.pos + 1⟩) := by
    unfold next
    rw [if_neg (by omega)]
  have hadv : advancePast c ',' = .ok ⟨c.input, c.pos + 1⟩ := by
    unfold advancePast
    simp only [hnext]
    rw [if_neg (fun hne => hne hgot)]
  obtain ⟨e, he⟩ := hrej s (skipPastWhitespace ⟨c.input, c.pos + 1⟩) hpo
  refine ⟨e, ?_⟩
  unfold commaSepLoop
  rw [if_neg (by rw [hpc]; exact hco)]
  simp only [hadv, he]

/-- The parse callback stays within the input range. -/
def ParseBounded {σ : Type}
    (parse : σ → DecCtx → Option (Except DecodeErr (σ × DecCtx))) : Prop :=
  ∀ s c s2 c2, parse s c = some (.ok (s2, c2)) →
    c2.input = c.input ∧ c2.pos ≤ c2.input.length

theorem peek_outro_lt {c : DecCtx} {outro : Char} (ho : outro ≠ nullChar)
    (h : peek c = outro) : c.pos < c.input.length := by
  by_contra hge
  unfold peek DecCtx.remaining at h
  rw [if_neg (by omega)] at h
  exact ho h.symm

theorem commaSepLoop_bound {σ : Type} {outro : Char}
    {parse : σ → DecCtx → Option (Except DecodeErr (σ × DecCtx))}
    (ho : outro ≠ nullChar) (hb : ParseBounded parse) :
    ∀ fuel (s : σ) (c : DecCtx) s4 c4,
      commaSepLoop outro parse fuel s c = some (.ok (s4, c4)) →
      c4.input = c.input ∧ c4.pos < c4.input.length := by
  intro fuel
  induction fuel with
  | zero =>
    intro s c s4 c4 h
    exact absurd h (by simp [commaSepLoop])
  | succ f ih =>
    intro s c s4 c4 h
    unfold commaSepLoop at h
    split at h
    · rename_i hpeek
      injection h with h2
      injection h2 with h3
      injection h3 with hs hc
      rw [← hc]
      exact ⟨rfl, peek_outro_lt ho hpeek⟩
    · cases hadv : advancePast c ',' with
      | error e =>
        simp [hadv] at h
      | ok c1 =>
        obtain ⟨hi1, _, _⟩ := advancePast_ok hadv
        simp only [hadv] at h
        cases hps : parse s (skipPastWhitespace c1) with
        | none =>
          simp [hps] at h
        | some res =>
          simp only [hps] at h
          cases res with
          | error e => simp at h
          | ok p =>
            obtain ⟨s2, c2⟩ := p
            obtain ⟨hi2, _⟩ := hb s (skipPastWhitespace c1) s2 c2 hps
            obtain ⟨hi4, hlt4⟩ := ih s2 (skipPastWhitespace c2) s4 c4 h
            refine ⟨?_, hlt4⟩
            rw [hi4, skipWs_input, hi2, skipWs_input, hi1]

/-- Safety of the final unchecked `context.position++`: when the outro
is not the null byte, the loop can only stop on a real `outro` byte,
so the increment stays within `[begin, end]`. -/
theorem advancePastCommaSeparated_bound {σ : Type} {intro outro : Char}
    {parse : σ → DecCtx → Option (Except DecodeErr (σ × DecCtx))}
    (ho : outro ≠ nullChar) (hb : ParseBounded parse) (fuel : Nat) (s : σ)
    (c : DecCtx) (s4 : σ) (c4 : DecCtx)
    (h : advancePastCommaSeparated fuel intro outro parse s c = some (.ok (s4, c4))) :
    c4.input = c.input ∧ c4.pos ≤ c4.input.length := by
  unfold advancePastCommaSeparated at h
  cases hadv : advancePast c intro with
  | error e =>
    rw [hadv] at h
    exact absurd h (by simp)
  | ok c1 =>
    obtain ⟨hi1, _, _⟩ := advancePast_ok hadv
    simp only [hadv] at h
    split at h
    · rename_i hpeek
      have hlt := peek_outro_lt ho hpeek
      injection h with h2
      injection h2 with h3
      injection h3 with hs hc
      rw [← hc]
      constructor
      · rw [skipWs_input, hi1]
      · simp only
        rw [skipWs_input, hi1] at hlt ⊢
        omega
    · cases hps : parse s (skipPastWhitespace c1) with
      | none =>
        simp [hps] at h
      | some res =>
        simp only [hps] at h
        cases res with
        | error e => simp at h
        | ok p =>
          obtain ⟨s2, c3⟩ := p
          obtain ⟨hi2, _⟩ := hb s (skipPastWhitespace c1) s2 c3 hps
          cases hcl : commaSepLoop outro parse fuel s2 (skipPastWhitespace c3) with
          | none =>
            simp [hcl] at h
          | some res2 =>
            simp only [hcl] at h
            cases res2 with
            | error e => simp at h
            | ok p2 =>
              obtain ⟨s5, c5⟩ := p2
              obtain ⟨hi5, hlt5⟩ := commaSepLoop_bound ho hb fuel s2
                (skipPastWhitespace c3) s5 c5 hcl
              injection h with h2
              injection h2 with h3
              injection h3 with hs hc
              rw [← hc]
              constructor
              · rw [hi5, skipWs_input, hi2, skipWs_input, hi1]
              · simp only
                omega

/-! ## Well-formed string bodies for `advance_past_string` -/

/-- One lexical item of a JSON string body: a plain character, a short
escape, or a `\\u` escape with four hex digits. -/
inductive StrItem : Type where
  | plain (c : Char)
  | esc (c : Char)
  | escU (d0 d1 d2 d3 : Char)

/-- The bytes of an item. -/
def StrItem.render : StrItem → List Char
  | .plain c => [c]
  | .esc c => ['\\', c]
  | .escU d0 d1 d2 d3 => ['\\', 'u', d0, d1, d2, d3]

/-- Validity: plain characters are neither quote nor backslash; short
escapes are one of the eight accepted characters; `\\u` escapes carry
four hex digits. -/
def StrItem.valid : StrItem → Bool
  | .plain c => !(c = '"' || c = '\\')
  | .esc c => c = '"' || c = '\\' || c = '/' || c = 'b' || c = 'f' ||
      c = 'n' || c = 'r' || c = 't'
  | .escU d0 d1 d2 d3 => isHexDigit d0 && isHexDigit d1 && isHexDigit d2 && isHexDigit d3

/-- The bytes of a string body. -/
def renderStr (items : List StrItem) : List Char := (items.map StrItem.render).flatten

/-- One valid item advances the string-skipping loop by its render
length. -/
theorem advancePastStringBody_item {it : StrItem} (hv : it.valid = true) {c : DecCtx}
    {r : List Char} (h : c.input.drop c.pos = it.render ++ r) :
    advancePastStringBody c
      = advancePastStringBody ⟨c.input, c.pos + it.render.length⟩ := by
  cases it with
  | plain x =>
    have hx : ¬(x = '"' ∨ x = '\\') := by
      simpa [StrItem.valid] using hv
    have hd : c.input.drop c.pos = x :: r := by
      simpa [StrItem.render] using h
    conv_lhs => unfold advancePastStringBody
    split
    · rename_i e heq
      rw [next_drop hd] at heq
      exact absurd heq (by simp)
    · rename_i ch c1 heq
      rw [next_drop hd] at heq
      injection heq with heq2
      injection heq2 with ha hb
      rw [← ha, ← hb, if_neg (fun hq => hx (Or.inl hq)), if_neg (fun hq => hx (Or.inr hq))]
      rfl
  | esc x =>
    have hx : (x = '"' || x = '\\' || x = '/' || x = 'b' || x = 'f' ||
        x = 'n' || x = 'r' || x = 't' : Bool) = true := by
      simpa [StrItem.valid] using hv
    have hd : c.input.drop c.pos = '\\' :: (x :: r) := by
      simpa [StrItem.render] using h
    have hd2 : c.input.drop (c.pos + 1) = x :: r :=
      drop_shift (a := ['\\']) (by simpa using hd)
    have hesc : advancePastStringEscapeAfterSlash ⟨c.input, c.pos + 1⟩
        = .ok ⟨c.input, c.pos + 1 + 1⟩ := by
      unfold advancePastStringEscapeAfterSlash
      simp only [next_drop (c := ⟨c.input, c.pos + 1⟩) hd2]
      rw [if_pos hx]
    conv_lhs => unfold advancePastStringBody
    split
    · rename_i e heq
      rw [next_drop hd] at heq
      exact absurd heq (by simp)
    · rename_i ch c1 heq
      rw [next_drop hd] at heq
      injection heq with heq2
      injection heq2 with ha hb
      rw [← ha, ← hb, if_neg (by decide), if_pos rfl]
      split
      · rename_i e heq2
        rw [hesc] at heq2
        exact absurd heq2 (by simp)
      · rename_i c2 heq2
        rw [hesc] at heq2
        injection heq2 with hc
        rw [← hc]
        show advancePastStringBody ⟨c.input, c.pos + 1 + 1⟩
          = advancePastStringBody ⟨c.input, c.pos + (StrItem.esc x).render.length⟩
        rw [show c.pos + (StrItem.esc x).render.length = c.pos + 1 + 1 from by
          simp [StrItem.render]]
  | escU d0 d1 d2 d3 =>
    have hx : isHexDigit d0 && isHexDigit d1 && isHexDigit d2 && isHexDigit d3 := by
      simpa [StrItem.valid] using hv
    have hd : c.input.drop c.pos = '\\' :: ('u' :: (d0 :: d1 :: d2 :: d3 :: r)) := by
      simpa [StrItem.render] using h
    have hd2 : c.input.drop (c.pos + 1) = 'u' :: (d0 :: d1 :: d2 :: d3 :: r) :=
      drop_shift (a := ['\\']) (by simpa using hd)
    have hd3 : c.input.drop (c.pos + 1 + 1) = [d0, d1, d2, d3] ++ r :=
      drop_shift (a := ['u']) (by simpa using hd2)
    have hrem : ¬ (DecCtx.remaining ⟨c.input, c.pos + 1 + 1⟩ < 4) := by
      have h5 := remaining_drop (c := ⟨c.input, c.pos + 1 + 1⟩) (a := [d0, d1, d2, d3] ++ r)
        (by simpa using hd3)
      simp at h5
      omega
    have hg0 : c.input.getD (c.pos + 1 + 1) nullChar = d0 :=
      getD_of_drop (by simpa using hd3)
    have hg1 : c.input.getD (c.pos + 1 + 1 + 1) nullChar = d1 := by
      refine getD_of_drop (r := d2 :: d3 :: r) ?_
      have := drop_shift (a := [d0]) (l := c.input) (p := c.pos + 1 + 1)
        (by simpa using hd3)
      simpa using this
    have hg2 : c.input.getD (c.pos + 1 + 1 + 2) nullChar = d2 := by
      refine getD_of_drop (r := d3 :: r) ?_
      have := drop_shift (a := [d0, d1]) (l := c.input) (p := c.pos + 1 + 1)
        (by simpa using hd3)
      simpa using this
    have hg3 : c.input.getD (c.pos + 1 + 1 + 3) nullChar = d3 := by
      refine getD_of_drop (r := r) ?_
      have := drop_shift (a := [d0, d1, d2]) (l := c.input) (p := c.pos + 1 + 1)
        (by simpa using hd3)
      simpa using this
    have hesc : advancePastStringEscapeAfterSlash ⟨c.input, c.pos + 1⟩
        = .ok ⟨c.input, c.pos + 1 + 1 + 4⟩ := by
      unfold advancePastStringEscapeAfterSlash
      simp only [next_drop (c := ⟨c.input, c.pos + 1⟩) hd2]
      rw [if_neg (by decide), if_pos (by decide), if_neg hrem]
      simp only [hg0, hg1, hg2, hg3]
      rw [if_pos hx]
    conv_lhs => unfold advancePastStringBody
    split
    · rename_i e heq
      rw [next_drop hd] at heq
      exact absurd heq (by simp)
    · rename_i ch c1 heq
      rw [next_drop hd] at heq
      injection heq with heq2
      injection heq2 with ha hb
      rw [← ha, ← hb, if_neg (by decide), if_pos rfl]
      split
      · rename_i e heq2
        rw [hesc] at heq2
        exact absurd heq2 (by simp)
      · rename_i c2 heq2
        rw [hesc] at heq2
        injection heq2 with hc
        rw [← hc]
        rw [show c.pos + (StrItem.escU d0 d1 d2 d3).render.length = c.pos + 1 + 1 + 4 from by
          simp [StrItem.render]]

/-- A run of valid items advances the string-skipping loop by the run's
length, whatever follows. -/
theorem advancePastStringBody_shift {items : List StrItem}
    (hv : ∀ it ∈ items, it.valid = true) :
    ∀ {c : DecCtx} {r : List Char}, c.input.drop c.pos = renderStr items ++ r →
    advancePastStringBody c
      = advancePastStringBody ⟨c.input, c.pos + (renderStr items).length⟩ := by
  induction items with
  | nil =>
    intro c r h
    show advancePastStringBody c = advancePastStringBody ⟨c.input, c.pos + 0⟩
    rw [show (⟨c.input, c.pos + 0⟩ : DecCtx) = c from by simp]
  | cons it rest ih =>
    intro c r h
    have hren : renderStr (it :: rest) = it.render ++ renderStr rest := by
      simp [renderStr]
    rw [hren] at h
    have h2 : c.input.drop c.pos = it.render ++ (renderStr rest ++ r) := by
      rw [h, List.append_assoc]
    have hstep := advancePastStringBody_item (hv it (by simp)) h2
    have hshift : c.input.drop (c.pos + it.render.length) = renderStr rest ++ r :=
      drop_shift h2
    rw [hstep, ih (fun q hq => hv q (by simp [hq])) hshift, hren]
    rw [show c.pos + (it.render ++ renderStr rest).length
        = c.pos + it.render.length + (renderStr rest).length from by
      rw [List.length_append]
      omega]

/-- Closing quote: the loop stops just past it. -/
theorem advancePastStringBody_close {c : DecCtx} {r : List Char}
    (h : c.input.drop c.pos = '"' :: r) :
    advancePastStringBody c = .ok ⟨c.input, c.pos + 1⟩ := by
  conv_lhs => unfold advancePastStringBody
  split
  · rename_i e heq
    rw [next_drop h] at heq
    exact absurd heq (by simp)
  · rename_i ch c1 heq
    rw [next_drop h] at heq
    injection heq with heq2
    injection heq2 with ha hb
    rw [← ha, ← hb, if_pos rfl]

/-- End of input inside the string: "Unterminated string" at the
current offset. -/
theorem advancePastStringBody_eoi {c : DecCtx} (h : c.input.drop c.pos = []) :
    advancePastStringBody c = .error ⟨"Unterminated string", (c.pos : Int)⟩ := by
  have hrem : c.remaining = 0 := by
    have := remaining_drop h
    simpa using this
  have hnext : next c "Unterminated string"
      = .error ⟨"Unterminated string", (c.pos : Int)⟩ := by
    unfold next
    rw [if_pos (by omega)]
    unfold decodeFail
    norm_num
  conv_lhs => unfold advancePastStringBody
  split
  · rename_i e heq
    rw [hnext] at heq
    injection heq with he
    rw [← he]
  · rename_i ch c1 heq
    rw [hnext] at heq
    exact absurd heq (by simp)

/-- A bad escape byte: "Invalid escape character" at the offset of the
offending byte. -/
theorem advancePastStringBody_badEscape {c : DecCtx} {b : Char} {r : List Char}
    (h : c.input.drop c.pos = '\\' :: (b :: r))
    (hb : (b = '"' || b = '\\' || b = '/' || b = 'b' || b = 'f' ||
      b = 'n' || b = 'r' || b = 't' : Bool) = false) (hu : b ≠ 'u') :
    advancePastStringBody c
      = .error ⟨"Invalid escape character", ((c.pos + 1 : Nat) : Int)⟩ := by
  have hd2 : c.input.drop (c.pos + 1) = b :: r :=
    drop_shift (a := ['\\']) (by simpa using h)
  have hesc : advancePastStringEscapeAfterSlash ⟨c.input, c.pos + 1⟩
      = .error ⟨"Invalid escape character", ((c.pos + 1 : Nat) : Int)⟩ := by
    unfold advancePastStringEscapeAfterSlash
    simp only [next_drop (c := ⟨c.input, c.pos + 1⟩) hd2]
    rw [if_neg (by simpa using hb), if_neg hu]
    unfold decodeFail
    simp only [Except.error.injEq, DecodeErr.mk.injEq, true_and]
    push_cast
    ring
  conv_lhs => unfold advancePastStringBody
  split
  · rename_i e heq
    rw [next_drop h] at heq
    exact absurd heq (by simp)
  · rename_i ch c1 heq
    rw [next_drop h] at heq
    injection heq with heq2
    injection heq2 with ha hb2
    rw [← ha, ← hb2, if_neg (by decide), if_pos rfl]
    split
    · rename_i e heq2
      rw [hesc] at heq2
      injection heq2 with he
      rw [← he]
    · rename_i c2 heq2
      rw [hesc] at heq2
      exact absurd heq2 (by simp)

/-- A `\\u` escape whose following four bytes are present but not all
hex digits: "\\u must be followed by 4 hex digits". -/
theorem advancePastStringBody_badHex {c : DecCtx} {d0 d1 d2 d3 : Char} {r : List Char}
    (h : c.input.drop c.pos = '\\' :: ('u' :: (d0 :: d1 :: d2 :: d3 :: r)))
    (hb : (isHexDigit d0 && isHexDigit d1 && isHexDigit d2 && isHexDigit d3) = false) :
    advancePastStringBody c
      = .error ⟨"\\u must be followed by 4 hex digits", ((c.pos + 6 : Nat) : Int)⟩ := by
  have hd2 : c.input.drop (c.pos + 1) = 'u' :: (d0 :: d1 :: d2 :: d3 :: r) :=
    drop_shift (a := ['\\']) (by simpa using h)
  have hd3 : c.input.drop (c.pos + 1 + 1) = [d0, d1, d2, d3] ++ r :=
    drop_shift (a := ['u']) (by simpa using hd2)
  have hrem : ¬ (DecCtx.remaining ⟨c.input, c.pos + 1 + 1⟩ < 4) := by
    have h5 := remaining_drop (c := ⟨c.input, c.pos + 1 + 1⟩) (a := [d0, d1, d2, d3] ++ r)
      (by simpa using hd3)
    simp at h5
    omega
  have hg0 : c.input.getD (c.pos + 1 + 1) nullChar = d0 :=
    getD_of_drop (by simpa using hd3)
  have hg1 : c.input.getD (c.pos + 1 + 1 + 1) nullChar = d1 := by
    refine getD_of_drop (r := d2 :: d3 :: r) ?_
    have := drop_shift (a := [d0]) (l := c.input) (p := c.pos + 1 + 1) (by simpa using hd3)
    simpa using this
  have hg2 : c.input.getD (c.pos + 1 + 1 + 2) nullChar = d2 := by
    refine getD_of_drop (r := d3 :: r) ?_
    have := drop_shift (a := [d0, d1]) (l := c.input) (p := c.pos + 1 + 1)
      (by simpa using hd3)
    simpa using this
  have hg3 : c.input.getD (c.pos + 1 + 1 + 3) nullChar = d3 := by
    refine getD_of_drop (r := r) ?_
    have := drop_shift (a := [d0, d1, d2]) (l := c.input) (p := c.pos + 1 + 1)
      (by simpa using hd3)
    simpa using this
  have hesc : advancePastStringEscapeAfterSlash ⟨c.input, c.pos + 1⟩
      = .error ⟨"\\u must be followed by 4 hex digits", ((c.pos + 6 : Nat) : Int)⟩ := by
    unfold advancePastStringEscapeAfterSlash
    simp only [next_drop (c := ⟨c.input, c.pos + 1⟩) hd2]
    rw [if_neg (by decide), if_pos (by decide), if_neg hrem]
    simp only [hg0, hg1, hg2, hg3]
    rw [if_neg (by simp [hb])]
    unfold decodeFail
    simp only [Except.error.injEq, DecodeErr.mk.injEq, true_and]
    push_cast
    ring
  conv_lhs => unfold advancePastStringBody
  split
  · rename_i e heq
    rw [next_drop h] at heq
    exact absurd heq (by simp)
  · rename_i ch c1 heq
    rw [next_drop h] at heq
    injection heq with heq2
    injection heq2 with ha hb2
    rw [← ha, ← hb2, if_neg (by decide), if_pos rfl]
    split
    · rename_i e heq2
      rw [hesc] at heq2
      injection heq2 with he
      rw [← he]
    · rename_i c2 heq2
      rw [hesc] at heq2
      exact absurd heq2 (by simp)

/-- A `\\u` escape with fewer than four bytes left:
"\\u must be followed by 4 hex digits". -/
theorem advancePastStringBody_shortHex {c : DecCtx} {t : List Char}
    (h : c.input.drop c.pos = '\\' :: ('u' :: t)) (ht : t.length < 4)
    (hend : c.input.length = c.pos + 2 + t.length) :
    advancePastStringBody c
      = .error ⟨"\\u must be followed by 4 hex digits", ((c.pos + 2 : Nat) : Int)⟩ := by
  have hd2 : c.input.drop (c.pos + 1) = 'u' :: t :=
    drop_shift (a := ['\\']) (by simpa using h)
  have hesc : advancePastStringEscapeAfterSlash ⟨c.input, c.pos + 1⟩
      = .error ⟨"\\u must be followed by 4 hex digits", ((c.pos + 2 : Nat) : Int)⟩ := by
    unfold advancePastStringEscapeAfterSlash
    simp only [next_drop (c := ⟨c.input, c.pos + 1⟩) hd2]
    rw [if_neg (by decide), if_pos (by decide)]
    rw [if_pos (by unfold DecCtx.remaining; simp only; omega)]
    unfold decodeFail
    simp only [Except.error.injEq, DecodeErr.mk.injEq, true_and]
    push_cast
    ring
  conv_lhs => unfold advancePastStringBody
  split
  · rename_i e heq
    rw [next_drop h] at heq
    exact absurd heq (by simp)
  · rename_i ch c1 heq
    rw [next_drop h] at heq
    injection heq with heq2
    injection heq2 with ha hb2
    rw [← ha, ← hb2, if_neg (by decide), if_pos rfl]
    split
    · rename_i e heq2
      rw [hesc] at heq2
      injection heq2 with he
      rw [← he]
    · rename_i c2 heq2
      rw [hesc] at heq2
      exact absurd heq2 (by simp)

/-! ## Concrete evaluation helpers for the boolean codec and skip_value -/

/-- The bytes of a boolean literal. -/
def boolBytes (v : Bool) : List Char :=
  if v then ['t', 'r', 'u', 'e'] else ['f', 'a', 'l', 's', 'e']

theorem boolCodec_encAppends : EncAppends boolCodec boolBytes := by
  intro buf x
  cases x <;> rfl

theorem boolCodec_decConsumes (v : Bool) : DecConsumes boolCodec.decode (boolBytes v) v := by
  intro pre post
  cases v
  · have hd : (pre ++ boolBytes false ++ post).drop pre.length
        = 'f' :: ('a' :: 'l' :: 's' :: 'e' :: post) := by
      rw [List.append_assoc, List.drop_left]
      rfl
    have hff : advancePastFour (⟨pre ++ boolBytes false ++ post, pre.length + 1⟩ : DecCtx)
        ['a', 'l', 's', 'e'] = .ok ⟨pre ++ boolBytes false ++ post, pre.length + 1 + 4⟩ := by
      have hd2 : (pre ++ boolBytes false ++ post).drop (pre.length + 1)
          = ['a', 'l', 's', 'e'] ++ post := by
        have := drop_shift (a := ['f']) (l := pre ++ boolBytes false ++ post)
          (p := pre.length) (by simpa using hd)
        simpa using this
      exact advancePastFour_drop hd2 rfl
    show (if peek (⟨pre ++ boolBytes false ++ post, pre.length⟩ : DecCtx) = 't' then
        match advancePastFour (⟨pre ++ boolBytes false ++ post, pre.length⟩ : DecCtx)
            ['t', 'r', 'u', 'e'] with
        | Except.error e => (Except.error e : Except DecodeErr (Bool × DecCtx))
        | Except.ok c1 => Except.ok (true, c1)
      else if peek (⟨pre ++ boolBytes false ++ post, pre.length⟩ : DecCtx) = 'f' then
        match advancePastFour (⟨pre ++ boolBytes false ++ post, pre.length + 1⟩ : DecCtx)
            ['a', 'l', 's', 'e'] with
        | Except.error e => Except.error e
        | Except.ok c1 => Except.ok (false, c1)
      else decodeFail (⟨pre ++ boolBytes false ++ post, pre.length⟩ : DecCtx)
        "Unexpected input" 0)
      = Except.ok (false,
        ⟨pre ++ boolBytes false ++ post, pre.length + (boolBytes false).length⟩)
    rw [peek_drop (c := ⟨pre ++ boolBytes false ++ post, pre.length⟩) hd]
    rw [if_neg (by decide), if_pos (by decide)]
    simp only [hff]
    rfl
  · have hd : (pre ++ boolBytes true ++ post).drop pre.length
        = ['t', 'r', 'u', 'e'] ++ post := by
      rw [List.append_assoc, List.drop_left]
      rfl
    have htt : advancePastFour (⟨pre ++ boolBytes true ++ post, pre.length⟩ : DecCtx)
        ['t', 'r', 'u', 'e'] = .ok ⟨pre ++ boolBytes true ++ post, pre.length + 4⟩ :=
      advancePastFour_drop hd rfl
    show (if peek (⟨pre ++ boolBytes true ++ post, pre.length⟩ : DecCtx) = 't' then
        match advancePastFour (⟨pre ++ boolBytes true ++ post, pre.length⟩ : DecCtx)
            ['t', 'r', 'u', 'e'] with
        | Except.error e => (Except.error e : Except DecodeErr (Bool × DecCtx))
        | Except.ok c1 => Except.ok (true, c1)
      else if peek (⟨pre ++ boolBytes true ++ post, pre.length⟩ : DecCtx) = 'f' then
        match advancePastFour (⟨pre ++ boolBytes true ++ post, pre.length + 1⟩ : DecCtx)
            ['a', 'l', 's', 'e'] with
        | Except.error e => Except.error e
        | Except.ok c1 => Except.ok (false, c1)
      else decodeFail (⟨pre ++ boolBytes true ++ post, pre.length⟩ : DecCtx)
        "Unexpected input" 0)
      = Except.ok (true,
        ⟨pre ++ boolBytes true ++ post, pre.length + (boolBytes true).length⟩)
    rw [peek_drop (c := ⟨pre ++ boolBytes true ++ post, pre.length⟩) (by simpa using hd)]
    rw [if_pos (by decide)]
    simp only [htt]
    rfl

/-- `skip_value` consumes a `true` literal exactly (with any positive
fuel). -/
theorem skipValueF_true {fuel : Nat} (hf : 1 ≤ fuel) :
    SkipConsumes fuel ['t', 'r', 'u', 'e'] := by
  intro pre post
  obtain ⟨f, rfl⟩ : ∃ f, fuel = f + 1 := ⟨fuel - 1, by omega⟩
  have hd : (pre ++ ['t', 'r', 'u', 'e'] ++ post).drop pre.length
      = 't' :: ('r' :: 'u' :: 'e' :: post) := by
    rw [List.append_assoc, List.drop_left]
    rfl
  have hws : skipPastWhitespace ⟨pre ++ ['t', 'r', 'u', 'e'] ++ post, pre.length⟩
      = ⟨pre ++ ['t', 'r', 'u', 'e'] ++ post, pre.length⟩ :=
    skipWs_nil hd (by decide)
  have hfour : advancePastFour
      (⟨pre ++ ['t', 'r', 'u', 'e'] ++ post, pre.length⟩ : DecCtx) ['t', 'r', 'u', 'e']
      = .ok ⟨pre ++ ['t', 'r', 'u', 'e'] ++ post, pre.length + 4⟩ :=
    advancePastFour_drop (by rw [List.append_assoc, List.drop_left]) rfl
  unfold skipValueF
  simp only [hws]
  rw [peek_drop (c := ⟨pre ++ ['t', 'r', 'u', 'e'] ++ post, pre.length⟩) hd]
  rw [if_neg (by decide), if_neg (by decide), if_neg (by decide), if_pos (by decide)]
  simp only [hfour]
  rfl

/-! ## Unknown-field transparency helpers -/

/-- The observable part of a decode outcome: the value on success, the
message on failure; cursor positions and offsets are dropped. -/
def resultView {T : Type} : Option (Except DecodeErr (T × DecCtx)) → Option (Except String T)
  | none => none
  | some (.error e) => some (.error e.msg)
  | some (.ok (t, _)) => some (.ok t)

/-- A pair whose step is the identity can be inserted anywhere in the
fold without changing it. -/
theorem foldPairs_insertIdx_id {T : Type} (o : ObjectT T) (q : PairItem T)
    (hid : ∀ s, pairStep o q.key q.g s = s) (ps : List (PairItem T)) :
    ∀ (i : Nat) (s : ObjState T), i ≤ ps.length →
      foldPairs o (ps.insertIdx i q) s = foldPairs o ps s := by
  induction ps with
  | nil =>
    intro i s hi
    obtain rfl : i = 0 := by simpa using hi
    show foldPairs o [q] s = foldPairs o [] s
    show foldPairs o [] (pairStep o q.key q.g s) = foldPairs o [] s
    rw [hid s]
  | cons p rest ih =>
    intro i s hi
    cases i with
    | zero =>
      show foldPairs o (q :: p :: rest) s = foldPairs o (p :: rest) s
      show foldPairs o (p :: rest) (pairStep o q.key q.g s) = foldPairs o (p :: rest) s
      rw [hid s]
    | succ j =>
      show foldPairs o (p :: rest.insertIdx j q) s = foldPairs o (p :: rest) s
      show foldPairs o (rest.insertIdx j q) (pairStep o p.key p.g s)
        = foldPairs o rest (pairStep o p.key p.g s)
      exact ih j _ (by simpa using hi)

/-- Inserting an unknown-key pair leaves the record fold unchanged as
well. -/
theorem outFold_insertIdx_id {T : Type} (o : ObjectT T) (q : PairItem T)
    (hq : findField o.fields q.key = none) (ps : List (PairItem T)) :
    ∀ (i : Nat) (t : T), i ≤ ps.length →
      (ps.insertIdx i q).foldl (fun t p => outStep o p.key p.g t) t
        = ps.foldl (fun t p => outStep o p.key p.g t) t := by
  induction ps with
  | nil =>
    intro i t hi
    obtain rfl : i = 0 := by simpa using hi
    show outStep o q.key q.g t = t
    simp [outStep, hq]
  | cons p rest ih =>
    intro i t hi
    cases i with
    | zero =>
      show ((p :: rest).foldl _ (outStep o q.key q.g t)) = _
      rw [show outStep o q.key q.g t = t from by simp [outStep, hq]]
    | succ j =>
      show (rest.insertIdx j q).foldl _ (outStep o p.key p.g t) = _
      exact ih j _ (by simpa using hi)

/-! ## Whitespace-free objects and comma-joined chunks -/

theorem pairTail_joinComma {T : Type} {ps : List (PairItem T)}
    (hws : ∀ p ∈ ps, p.wsA = [] ∧ p.wsB = []) :
    ∀ q : List Char, q ++ pairTail ps = joinComma (q :: ps.map pairBytes) := by
  induction ps with
  | nil =>
    intro q
    simp [pairTail, joinComma]
  | cons p rest ih =>
    intro q
    obtain ⟨hA, hB⟩ := hws p (by simp)
    show q ++ (',' :: (p.wsA ++ pairBytes p ++ p.wsB ++ pairTail rest))
      = q ++ ',' :: joinComma (pairBytes p :: rest.map pairBytes)
    rw [← ih (fun x hx => hws x (by simp [hx])) (pairBytes p), hA, hB]
    simp

/-- A whitespace-free object is `'\x7b'`, the comma-joined pair bytes,
`'\x7d'`. -/
theorem objBytes_joinComma {T : Type} {ps : List (PairItem T)}
    (hws : ∀ p ∈ ps, p.wsA = [] ∧ p.wsB = []) :
    objBytes [] ps = '{' :: (joinComma (ps.map pairBytes) ++ ['}']) := by
  cases ps with
  | nil => rfl
  | cons p rest =>
    obtain ⟨hA, hB⟩ := hws p (by simp)
    show '{' :: [] ++ (pairBytes p ++ p.wsB ++ pairTail rest) ++ ['}']
      = '{' :: (joinComma (pairBytes p :: rest.map pairBytes) ++ ['}'])
    rw [hB, ← pairTail_joinComma (fun x hx => hws x (by simp [hx])) (pairBytes p)]
    simp

/-! ## Member-field registration specifications -/

/-- One member-variable field registration together with the data the
round-trip argument needs: the child codec, the bytes its encoder
emits for the value at hand, and the accessor pair. -/
structure MReg (T : Type) where
  α : Type
  name : String
  codec : Codec α
  enc : α → List Char
  get : T → α
  set : T → α → T

/-- The registration an `MReg` performs (a required member field). -/
def MReg.toReg {T : Type} (m : MReg T) : Reg T :=
  ⟨m.name, true, memberVarBody m.codec m.get m.set⟩

/-- The key/value pair the encoder emits for an `MReg` on the value
`v`: no whitespace, the escaped key, the child encoding. -/
def MReg.pairOf {T : Type} (m : MReg T) (v : T) : PairItem T :=
  ⟨[], stringEncode m.name, m.name, [], [], m.enc (m.get v), [],
    fun t => m.set t (m.get v)⟩

theorem mreg_names_map {T : Type} (ms : List (MReg T)) :
    (ms.map MReg.toReg).map (fun r => r.name) = ms.map (fun m => m.name) := by
  rw [List.map_map]
  rfl

theorem mreg_keys_map {T : Type} (ms : List (MReg T)) (v : T) :
    (ms.map (fun m => MReg.pairOf m v)).map (fun p => p.key)
      = ms.map (fun m => m.name) := by
  rw [List.map_map]
  rfl

theorem specFind_cons {T : Type} (r : Reg T) (rest : List (Reg T)) (n : Nat) (k : String) :
    specFind (r :: rest) n k
      = if r.name = k then some ⟨r.required, n, r.body⟩
        else specFind rest (n + (if r.required then 1 else 0)) k := rfl

theorem specFind_mreg_mem {T : Type} {m : MReg T} {ms : List (MReg T)}
    (hnd : (ms.map (fun x => x.name)).Nodup) (hm : m ∈ ms) :
    ∀ n, ∃ j, specFind (ms.map MReg.toReg) n m.name
      = some ⟨true, j, memberVarBody m.codec m.get m.set⟩ := by
  induction ms with
  | nil => exact absurd hm (by simp)
  | cons m0 rest ih =>
    rw [List.map_cons] at hnd
    obtain ⟨hnotin, hndrest⟩ := List.nodup_cons.mp hnd
    intro n
    rw [List.map_cons, specFind_cons]
    by_cases he : (MReg.toReg m0).name = m.name
    · rcases List.mem_cons.mp hm with rfl | hrest
      · exact ⟨n, by rw [if_pos he]; rfl⟩
      · exact absurd (by
          rw [show m0.name = m.name from he]
          exact List.mem_map_of_mem (fun x => x.name) hrest) hnotin
    · rcases List.mem_cons.mp hm with rfl | hrest
      · exact absurd rfl he
      · rw [if_neg he]
        exact ih hndrest hrest _

theorem findField_buildObj_mreg {T : Type} (t0 : T) {m : MReg T} {ms : List (MReg T)}
    (hnd : (ms.map (fun x => x.name)).Nodup) (hm : m ∈ ms) :
    ∃ j, findField (buildObj t0 (ms.map MReg.toReg)).fields m.name
      = some ⟨true, j, memberVarBody m.codec m.get m.set⟩ := by
  obtain ⟨j, hj⟩ := specFind_mreg_mem hnd hm 0
  refine ⟨j, ?_⟩
  have hfind := foldl_applyReg_find (emptyObj t0) (ms.map MReg.toReg) (fun r hr => rfl)
    (by rw [mreg_names_map]; exact hnd) m.name
  rw [show buildObj t0 (ms.map MReg.toReg)
      = (ms.map MReg.toReg).foldl applyReg (emptyObj t0) from rfl, hfind]
  show (match specFind (ms.map MReg.toReg) 0 m.name with
        | some f => some f
        | none => findField (emptyObj t0).fields m.name)
      = some ⟨true, j, memberVarBody m.codec m.get m.set⟩
  simp only [hj]

theorem goodPair_mreg {T : Type} (t0 : T) {m : MReg T} {ms : List (MReg T)}
    (hnd : (ms.map (fun x => x.name)).Nodup) (v : T) (hm : m ∈ ms)
    (hdec : DecConsumes m.codec.decode (m.enc (m.get v)) (m.get v))
    (hvb : ∃ h t, m.enc (m.get v) = h :: t ∧ ¬ (isWsChar h = true)) (fuel : Nat) :
    GoodPair (buildObj t0 (ms.map MReg.toReg)) fuel (MReg.pairOf m v) := by
  obtain ⟨j, hff⟩ := findField_buildObj_mreg t0 hnd hm
  refine ⟨⟨stringEncodeBody m.name.data ++ ['"'], rfl⟩, strConsumes_encode m.name,
    by simp [MReg.pairOf], by simp [MReg.pairOf], by simp [MReg.pairOf],
    by simp [MReg.pairOf], hvb, ?_⟩
  show (match findField (buildObj t0 (ms.map MReg.toReg)).fields m.name with
        | some f => FieldConsumes f.body.fdecode (MReg.pairOf m v).vb (MReg.pairOf m v).g
        | none => SkipConsumes fuel (MReg.pairOf m v).vb)
  simp only [hff]
  exact memberVarBody_fieldConsumes m.codec m.get m.set hdec

theorem outFold_mreg {T : Type} (t0 : T) {ms : List (MReg T)}
    (hnd : (ms.map (fun x => x.name)).Nodup) (v : T) :
    ∀ (sub : List (MReg T)), (∀ x ∈ sub, x ∈ ms) → ∀ t : T,
      (sub.map (fun m => MReg.pairOf m v)).foldl
        (fun t p => outStep (buildObj t0 (ms.map MReg.toReg)) p.key p.g t) t
        = sub.foldl (fun t m => m.set t (m.get v)) t := by
  intro sub
  induction sub with
  | nil =>
    intro _ t
    rfl
  | cons m rest ih =>
    intro hsub t
    obtain ⟨j, hff⟩ := findField_buildObj_mreg t0 hnd (hsub m (by simp))
    have hstep : outStep (buildObj t0 (ms.map MReg.toReg)) (MReg.pairOf m v).key
        (MReg.pairOf m v).g t = m.set t (m.get v) := by
      show outStep (buildObj t0 (ms.map MReg.toReg)) m.name
        (fun t => m.set t (m.get v)) t = m.set t (m.get v)
      unfold outStep
      simp only [hff]
    simp only [List.map_cons, List.foldl_cons]
    rw [hstep]
    exact ih (fun x hx => hsub x (by simp [hx])) _

theorem memberVarBody_fencode_emit_val {T α : Type} (codec : Codec α) (get : T → α)
    (set : T → α → T) (v : T) (eVal : List Char)
    (hse : codec.shouldEncode (get v) = true)
    (he : ∀ buf, codec.encode buf (get v) = .ok (buf ++ eVal)) :
    ∀ ek buf, (memberVarBody codec get set).fencode buf ek v
      = .ok (buf ++ ((ek.data ++ eVal) ++ [','])) := by
  intro ek buf
  simp [memberVarBody, hse, he (buf ++ ek.data), List.append_assoc]

theorem emitsList_mreg {T : Type} (v : T) :
    ∀ (ms : List (MReg T)),
    (∀ m ∈ ms, m.codec.shouldEncode (m.get v) = true) →
    (∀ m ∈ ms, ∀ buf, m.codec.encode buf (m.get v) = .ok (buf ++ m.enc (m.get v))) →
    ∀ n, EmitsList v (specList (ms.map MReg.toReg) n)
      (ms.map (fun m => (escapeKey m.name).data ++ m.enc (m.get v))) := by
  intro ms
  induction ms with
  | nil =>
    intro _ _ n
    exact EmitsList.nil
  | cons m rest ih =>
    intro hse henc n
    rw [List.map_cons, List.map_cons]
    show EmitsList v
      ((escapeKey (MReg.toReg m).name,
          ⟨(MReg.toReg m).required, n, (MReg.toReg m).body⟩)
        :: specList (rest.map MReg.toReg)
            (n + (if (MReg.toReg m).required then 1 else 0)))
      (((escapeKey m.name).data ++ m.enc (m.get v))
        :: rest.map (fun m => (escapeKey m.name).data ++ m.enc (m.get v)))
    exact EmitsList.emit
      (fun buf => memberVarBody_fencode_emit_val m.codec m.get m.set v (m.enc (m.get v))
        (hse m (by simp)) (henc m (by simp)) (escapeKey m.name) buf)
      (ih (fun x hx => hse x (by simp [hx])) (fun x hx => henc x (by simp [hx])) (n + 1))

theorem pairBytes_pairOf {T : Type} (m : MReg T) (v : T) :
    pairBytes (MReg.pairOf m v) = (escapeKey m.name).data ++ m.enc (m.get v) := by
  simp [pairBytes, MReg.pairOf, escapeKey]

theorem mreg_chunks_eq {T : Type} (ms : List (MReg T)) (v : T) :
    (ms.map (fun m => MReg.pairOf m v)).map pairBytes
      = ms.map (fun m => (escapeKey m.name).data ++ m.enc (m.get v)) := by
  induction ms with
  | nil => rfl
  | cons m rest ih =>
    rw [List.map_cons, List.map_cons, List.map_cons, pairBytes_pairOf, ih]

/-! ## Registration invariants of `object_t` -/

/-- The invariant `save_field` maintains: the ordered field list's keys
are the escaped keys of the map's keys (the association list grows at
the front, the field list at the back), and `_num_required_fields`
counts the required saved descriptors. -/
def ObjInv {T : Type} (o : ObjectT T) : Prop :=
  o.fieldList.map Prod.fst = (o.fields.map Prod.fst).reverse.map escapeKey ∧
  o.numRequired = (o.fieldList.filter (fun p => p.2.required)).length

theorem objInv_applyReg {T : Type} {o : ObjectT T} (h : ObjInv o) (r : Reg T) :
    ObjInv (applyReg o r) := by
  unfold applyReg saveField
  split
  · exact h
  · obtain ⟨h1, h2⟩ := h
    constructor
    · show (o.fieldList
          ++ [(escapeKey r.name,
                (⟨r.required, o.numRequired, r.body⟩ : Field T))]).map Prod.fst
        = (((r.name, (⟨r.required, o.numRequired, r.body⟩ : Field T))
            :: o.fields).map Prod.fst).reverse.map escapeKey
      simp [h1]
    · show o.numRequired + (if r.required then 1 else 0)
        = ((o.fieldList
            ++ [(escapeKey r.name,
                  (⟨r.required, o.numRequired, r.body⟩ : Field T))]).filter
              (fun p => p.2.required)).length
      rw [List.filter_append, List.length_append, ← h2]
      by_cases hr : r.required = true
      · simp [hr]
      · simp [hr]

theorem objInv_buildObj {T : Type} (t0 : T) (regs : List (Reg T)) :
    ObjInv (buildObj t0 regs) := by
  suffices h : ∀ (o : ObjectT T), ObjInv o → ObjInv (regs.foldl applyReg o) by
    exact h (emptyObj t0) ⟨rfl, rfl⟩
  induction regs with
  | nil =>
    intro o h
    exact h
  | cons r rest ih =>
    intro o h
    exact ih _ (objInv_applyReg h r)

/-! ## Concrete instances for evaluation -/

/-- A setter for a one-field record that is just the field. -/
def boolSet : Bool → Bool → Bool := fun _ b => b

/-- A required boolean member field named `"a"`. -/
def regA : Reg Bool := ⟨"a", true, memberVarBody boolCodec id boolSet⟩

/-- The object codec with the single required field `"a"`. -/
def objA : ObjectT Bool := buildObj false [regA]

/-- The pair `"a": v` with no whitespace. -/
def pairA (v : Bool) : PairItem Bool :=
  ⟨[], stringEncode "a", "a", [], [], boolBytes v, [], fun _ => v⟩

/-- The pair `"b": true` — `"b"` is unknown to `objA`. -/
def pairUnk : PairItem Bool :=
  ⟨[], stringEncode "b", "b", [], [], ['t', 'r', 'u', 'e'], [], fun t => t⟩

theorem goodPair_pairA (v : Bool) (fuel : Nat) : GoodPair objA fuel (pairA v) := by
  refine ⟨⟨stringEncodeBody "a".data ++ ['"'], rfl⟩, strConsumes_encode "a",
    by simp [pairA], by simp [pairA], by simp [pairA], by simp [pairA], ?_, ?_⟩
  · cases v
    · exact ⟨'f', ['a', 'l', 's', 'e'], rfl, by decide⟩
    · exact ⟨'t', ['r', 'u', 'e'], rfl, by decide⟩
  · have hff : findField objA.fields (pairA v).key
        = some ⟨true, 0, memberVarBody boolCodec id boolSet⟩ := rfl
    show (match findField objA.fields (pairA v).key with
          | some f => FieldConsumes f.body.fdecode (pairA v).vb (pairA v).g
          | none => SkipConsumes fuel (pairA v).vb)
    simp only [hff]
    exact memberVarBody_fieldConsumes boolCodec id boolSet (boolCodec_decConsumes v)

theorem goodPair_pairUnk {fuel : Nat} (hf : 1 ≤ fuel) : GoodPair objA fuel pairUnk := by
  refine ⟨⟨stringEncodeBody "b".data ++ ['"'], rfl⟩, strConsumes_encode "b",
    by simp [pairUnk], by simp [pairUnk], by simp [pairUnk], by simp [pairUnk],
    ⟨'t', ['r', 'u', 'e'], rfl, by decide⟩, ?_⟩
  have hff : findField objA.fields pairUnk.key = none := rfl
  show (match findField objA.fields pairUnk.key with
        | some f => FieldConsumes f.body.fdecode pairUnk.vb pairUnk.g
        | none => SkipConsumes fuel pairUnk.vb)
  simp only [hff]
  exact skipValueF_true hf

/-- A required member field of optional type, named `"a"`. -/
def regOptA : Reg (Option Bool) :=
  ⟨"a", true, memberVarBody (optionalT boolCodec) id (fun _ x => x)⟩

/-- The object codec with the single required optional-typed field. -/
def objOptA : ObjectT (Option Bool) := buildObj none [regOptA]

/-- A parse callback that always fails. -/
def rejectParse : Unit → DecCtx → Option (Except DecodeErr (Unit × DecCtx)) :=
  fun _ c => some (.error ⟨"Unexpected input", (c.pos : Int)⟩)

theorem rejectParse_bounded : ParseBounded rejectParse := by
  intro s c s2 c2 h
  simp [rejectParse] at h

/-- A parse callback that consumes one `'x'` byte and rejects anything
else. -/
def oneCharParse : Unit → DecCtx → Option (Except DecodeErr (Unit × DecCtx)) :=
  fun _ c =>
    if peek c = 'x' then some (.ok ((), ⟨c.input, c.pos + 1⟩))
    else some (.error ⟨"Unexpected input", (c.pos : Int)⟩)

theorem oneCharParse_advances : ParseAdvances oneCharParse := by
  intro s c
  constructor
  · unfold oneCharParse
    split <;> simp
  · intro s2 c2 h
    unfold oneCharParse at h
    split at h
    · have h2 : (⟨c.input, c.pos + 1⟩ : DecCtx) = c2 := by
        injection h with h3
        injection h3 with h4
        exact congrArg Prod.snd h4
      subst h2
      exact ⟨rfl, Nat.lt_succ_self c.pos⟩
    · simp at h

theorem oneCharParse_rejects (outro : Char) (ho : outro ≠ 'x') :
    ∀ (s : Unit) (c : DecCtx), peek c = outro → ∃ e, oneCharParse s c = some (.error e) := by
  intro s c hp
  refine ⟨⟨"Unexpected input", (c.pos : Int)⟩, ?_⟩
  unfold oneCharParse
  rw [if_neg (by rw [hp]; exact ho)]

/-- The string-body items of the witness string `a\n\u0041`. -/
def strItemsW : List StrItem :=
  [StrItem.plain 'a', StrItem.esc 'n', StrItem.escU '0' '0' '4' '1']

/-! ## The claims -/

/-- C9: for every inner codec and optional value, the optional
wrapper's `should_encode` returns true iff the optional is present and
the inner codec's `should_encode` of the contained value returns true;
and `encode` applied to an empty optional fails with exactly the
message "Cannot encode uninitialized optional". -/
theorem C9_optional_should_encode_and_encode_failure {α : Type} (inner : Codec α) :
    (∀ v : Option α, (optionalT inner).shouldEncode v = true
      ↔ ∃ x, v = some x ∧ inner.shouldEncode x = true) ∧
    (∀ buf : List Char,
      (optionalT inner).encode buf none
        = .error "Cannot encode uninitialized optional") := by
  constructor
  · intro v
    cases v with
    | none => simp [optionalT]
    | some x => simp [optionalT]
  · intro buf
    rfl

/-- C10: when the outro byte is not the null byte, the final unchecked
`context.position++` of `advance_past_comma_separated` is in bounds:
the loop only stops on a real outro byte (`peek` returns the null byte
at end of input), so on success the final position is a strictly
in-bounds position plus one, and never exceeds the end of the input
range. -/
theorem C10_final_increment_in_bounds {σ : Type} (intro outro : Char)
    (parse : σ → DecCtx → Option (Except DecodeErr (σ × DecCtx)))
    (ho : outro ≠ nullChar) (hb : ParseBounded parse) (fuel : Nat) (s : σ)
    (c : DecCtx) (s4 : σ) (c4 : DecCtx)
    (h : advancePastCommaSeparated fuel intro outro parse s c = some (.ok (s4, c4))) :
    c4.input = c.input ∧
    ∃ p, c4.pos = p + 1 ∧ p < c.input.length ∧ c4.pos ≤ c.input.length := by
  unfold advancePastCommaSeparated at h
  cases hadv : advancePast c intro with
  | error e =>
    rw [hadv] at h
    exact absurd h (by simp)
  | ok c1 =>
    obtain ⟨hi1, _, _⟩ := advancePast_ok hadv
    simp only [hadv] at h
    split at h
    · rename_i hpeek
      have hlt := peek_outro_lt ho hpeek
      injection h with h2
      injection h2 with h3
      injection h3 with hs hc
      rw [← hc]
      have hin : (skipPastWhitespace c1).input = c.input := by
        rw [skipWs_input, hi1]
      rw [hin] at hlt
      refine ⟨hin, (skipPastWhitespace c1).pos, rfl, hlt, ?_⟩
      show (skipPastWhitespace c1).pos + 1 ≤ c.input.length
      omega
    · cases hps : parse s (skipPastWhitespace c1) with
      | none => simp [hps] at h
      | some res =>
        simp only [hps] at h
        cases res with
        | error e => simp at h
        | ok p2 =>
          obtain ⟨s2, c3⟩ := p2
          obtain ⟨hi2, _⟩ := hb s (skipPastWhitespace c1) s2 c3 hps
          cases hcl : commaSepLoop outro parse fuel s2 (skipPastWhitespace c3) with
          | none => simp [hcl] at h
          | some res2 =>
            simp only [hcl] at h
            cases res2 with
            | error e => simp at h
            | ok p3 =>
              obtain ⟨s5, c5⟩ := p3
              obtain ⟨hi5, hlt5⟩ := commaSepLoop_bound ho hb fuel s2
                (skipPastWhitespace c3) s5 c5 hcl
              injection h with h2
              injection h2 with h3
              injection h3 with hs hc
              rw [← hc]
              have hin : c5.input = c.input := by
                rw [hi5, skipWs_input, hi2, skipWs_input, hi1]
              rw [hin] at hlt5
              refine ⟨hin, c5.pos, rfl, hlt5, ?_⟩
              show c5.pos + 1 ≤ c.input.length
              omega

theorem C10_final_increment_in_bounds_witness :
    (⟨['{', '}'], 2⟩ : DecCtx).input = (⟨['{', '}'], 0⟩ : DecCtx).input ∧
    ∃ p, (⟨['{', '}'], 2⟩ : DecCtx).pos = p + 1 ∧
      p < (⟨['{', '}'], 0⟩ : DecCtx).input.length ∧
      (⟨['{', '}'], 2⟩ : DecCtx).pos ≤ (⟨['{', '}'], 0⟩ : DecCtx).input.length :=
  C10_final_increment_in_bounds '{' '}' rejectParse (by decide) rejectParse_bounded
    1 () ⟨['{', '}'], 0⟩ () ⟨['{', '}'], 2⟩ rfl

/-- C7: under the documented contract that the parse callback always
returns and on success advances the cursor, `advance_past_comma_separated`
terminates (never runs out of fuel exceeding the input length); and a
trailing comma — a `','` followed, after whitespace, by the outro
byte — makes the loop hand the outro byte to the parse callback, which
rejects it, so the decode fails. -/
theorem C7_comma_separated_terminates_and_rejects_trailing_comma {σ : Type}
    (intro outro : Char)
    (parse : σ → DecCtx → Option (Except DecodeErr (σ × DecCtx)))
    (hp : ParseAdvances parse)
    (hrej : ∀ (s : σ) (c : DecCtx), peek c = outro → ∃ e, parse s c = some (.error e))
    (hco : ',' ≠ outro) :
    (∀ (fuel : Nat) (s : σ) (c : DecCtx), c.input.length < fuel →
      advancePastCommaSeparated fuel intro outro parse s c ≠ none) ∧
    (∀ c : DecCtx, peek c = ',' →
      peek (skipPastWhitespace ⟨c.input, c.pos + 1⟩) = outro →
      ∀ fuel : Nat, 1 ≤ fuel → ∀ s : σ,
        ∃ e, commaSepLoop outro parse fuel s c = some (.error e)) :=
  ⟨fun fuel s c hf => advancePastCommaSeparated_total hp fuel s c hf,
    fun c hpc hpo fuel hf s => commaSepLoop_trailing hrej hco hpc hpo fuel hf s⟩

theorem C7_comma_separated_witness :
    (advancePastCommaSeparated 4 '[' ']' oneCharParse () ⟨['[', 'x', ']'], 0⟩ ≠ none) ∧
    (∃ e, commaSepLoop ']' oneCharParse 4 () ⟨['[', 'x', ',', ']'], 2⟩
      = some (.error e)) := by
  obtain ⟨h1, h2⟩ := C7_comma_separated_terminates_and_rejects_trailing_comma '[' ']'
    oneCharParse oneCharParse_advances (oneCharParse_rejects ']' (by decide)) (by decide)
  exact ⟨h1 4 () ⟨['[', 'x', ']'], 0⟩ (by decide),
    h2 ⟨['[', 'x', ',', ']'], 2⟩ (by decide) (by decide) 4 (by decide) ()⟩

/-- C3: `object_t::encode` appends `'\x7b'`; for each registered field in
registration order a member field is skipped entirely when the child
codec's `should_encode` of its value is false and otherwise appends
the cached escaped-key-with-colon, the child encoding and `','` (a
dummy field uses the default-constructed sentinel); finally
`append_or_replace(',', '\x7d')` replaces the trailing comma, and with no
emitted fields the output is exactly the two bytes of an empty
object. -/
theorem C3_object_encode_algorithm {T α : Type} (codec : Codec α) (e : α → List Char)
    (he : EncAppends codec e) (get : T → α) (set : T → α → T) (dv : α) (v : T)
    (o : ObjectT T) (cs : List (List Char)) (h : EmitsList v o.fieldList cs)
    (buf : List Char) :
    (codec.shouldEncode (get v) = false →
      ∀ (ek : String) (b2 : List Char),
        (memberVarBody codec get set).fencode b2 ek v = .ok b2) ∧
    (codec.shouldEncode (get v) = true →
      ∀ (ek : String) (b2 : List Char),
        (memberVarBody codec get set).fencode b2 ek v
          = .ok (b2 ++ ((ek.data ++ e (get v)) ++ [',']))) ∧
    (codec.shouldEncode dv = false →
      ∀ (ek : String) (b2 : List Char),
        (dummyBody codec dv : FieldBody T).fencode b2 ek v = .ok b2) ∧
    (codec.shouldEncode dv = true →
      ∀ (ek : String) (b2 : List Char),
        (dummyBody codec dv : FieldBody T).fencode b2 ek v
          = .ok (b2 ++ ((ek.data ++ e dv) ++ [',']))) ∧
    objectEncode o buf v = .ok (buf ++ '{' :: (joinComma cs ++ ['}'])) ∧
    (cs = [] → objectEncode o buf v = .ok (buf ++ ['{', '}'])) := by
  refine ⟨fun hse ek b2 => memberVarBody_fencode_skip codec get set v hse ek b2,
    fun hse ek b2 => memberVarBody_fencode_emit codec get set e he v hse ek b2,
    fun hse ek b2 => dummyBody_fencode_skip codec dv v hse ek b2,
    fun hse ek b2 => dummyBody_fencode_emit codec dv e he v hse ek b2,
    objectEncode_emits h buf, fun hnil => ?_⟩
  subst hnil
  exact objectEncode_emits h buf

theorem C3_object_encode_witness :
    objectEncode objA [] true
      = .ok ([] ++ '{' :: (joinComma [(escapeKey "a").data ++ boolBytes true] ++ ['}'])) := by
  have hem : EmitsList true objA.fieldList [(escapeKey "a").data ++ boolBytes true] := by
    show EmitsList true
      [(escapeKey "a", ⟨true, 0, memberVarBody boolCodec id boolSet⟩)]
      [(escapeKey "a").data ++ boolBytes true]
    exact EmitsList.emit
      (fun b2 => memberVarBody_fencode_emit boolCodec id boolSet boolBytes
        boolCodec_encAppends true rfl (escapeKey "a") b2)
      EmitsList.nil
  exact (C3_object_encode_algorithm boolCodec boolBytes boolCodec_encAppends id boolSet
    true true objA [(escapeKey "a").data ++ boolBytes true] hem []).2.2.2.2.1

/-- C6 (amended): registering a key that is already present is a no-op
— the discarded registration changes neither the field list, nor the
key map, nor `_num_required_fields`; and after any registration
sequence the ordered field list's key sequence is the escaped-key
image of the map's keys (the raw and the escaped key sets correspond
via `escape_key` rather than being equal), and `_num_required_fields`
equals the number of saved descriptors with the required flag. -/
theorem C6_registration_first_wins_and_invariants {T : Type} (t0 : T)
    (regs : List (Reg T)) :
    (∀ (o : ObjectT T) (r : Reg T),
      (findField o.fields r.name).isSome = true → applyReg o r = o) ∧
    (buildObj t0 regs).fieldList.map Prod.fst
      = ((buildObj t0 regs).fields.map Prod.fst).reverse.map escapeKey ∧
    (buildObj t0 regs).numRequired
      = ((buildObj t0 regs).fieldList.filter (fun p => p.2.required)).length := by
  refine ⟨fun o r hf => ?_, (objInv_buildObj t0 regs).1, (objInv_buildObj t0 regs).2⟩
  unfold applyReg
  exact saveField_found hf

theorem C6_registration_witness :
    applyReg objA regA = objA ∧
    (buildObj false [regA, regA]).numRequired
      = ((buildObj false [regA, regA]).fieldList.filter
          (fun p => p.2.required)).length := by
  obtain ⟨h1, h2, h3⟩ := C6_registration_first_wins_and_invariants false [regA, regA]
  exact ⟨h1 objA regA rfl, h3⟩

theorem C6_escaped_key_set_counterexample :
    (applyReg (emptyObj false) regA).fields.map Prod.fst = ["a"] ∧
    (applyReg (emptyObj false) regA).fieldList.map Prod.fst = [escapeKey "a"] ∧
    escapeKey "a" ≠ "a" ∧
    "a" ∉ (applyReg (emptyObj false) regA).fieldList.map Prod.fst :=
  ⟨rfl, rfl, by decide, by decide⟩

/-- Opening a string: `advance_past_string` consumes the leading quote
and the valid body items, leaving the scanner at the tail. -/
theorem advancePastString_open {items : List StrItem}
    (hv : ∀ it ∈ items, it.valid = true) (pre tail : List Char) :
    advancePastString ⟨pre ++ '"' :: (renderStr items ++ tail), pre.length⟩
      = advancePastStringBody
          ⟨pre ++ '"' :: (renderStr items ++ tail),
            pre.length + 1 + (renderStr items).length⟩ := by
  have hd : (pre ++ '"' :: (renderStr items ++ tail)).drop pre.length
      = '"' :: (renderStr items ++ tail) :=
    List.drop_left pre ('"' :: (renderStr items ++ tail))
  have hadv := advancePast_drop
    (c := ⟨pre ++ '"' :: (renderStr items ++ tail), pre.length⟩) hd
  unfold advancePastString
  simp only [hadv]
  have hd2 : (pre ++ '"' :: (renderStr items ++ tail)).drop (pre.length + 1)
      = renderStr items ++ tail :=
    drop_shift (a := ['"']) (by simpa using hd)
  exact advancePastStringBody_shift hv hd2

/-- C8: `advance_past_string` consumes a leading quote and then bytes
up to an unescaped closing quote; after a backslash the next byte must
be one of the eight escape characters or `'u'`, otherwise it fails
with "Invalid escape character" at the offending byte's offset; after
a `\u` the following four bytes must each be hex digits or it fails
with "\u must be followed by 4 hex digits"; end of input before the
closing quote fails with "Unterminated string". -/
theorem C8_advance_past_string_spec (items : List StrItem)
    (hv : ∀ it ∈ items, it.valid = true) :
    (∀ (pre post : List Char),
      advancePastString ⟨pre ++ '"' :: (renderStr items ++ ('"' :: post)), pre.length⟩
        = .ok ⟨pre ++ '"' :: (renderStr items ++ ('"' :: post)),
            pre.length + 1 + (renderStr items).length + 1⟩) ∧
    (∀ (pre : List Char) (b : Char) (post : List Char),
      (b = '"' || b = '\\' || b = '/' || b = 'b' || b = 'f' ||
        b = 'n' || b = 'r' || b = 't' : Bool) = false → b ≠ 'u' →
      advancePastString
          ⟨pre ++ '"' :: (renderStr items ++ ('\\' :: b :: post)), pre.length⟩
        = .error ⟨"Invalid escape character",
            ((pre.length + 1 + (renderStr items).length + 1 : Nat) : Int)⟩) ∧
    (∀ (pre : List Char) (d0 d1 d2 d3 : Char) (post : List Char),
      (isHexDigit d0 && isHexDigit d1 && isHexDigit d2 && isHexDigit d3) = false →
      advancePastString
          ⟨pre ++ '"' :: (renderStr items
              ++ ('\\' :: 'u' :: d0 :: d1 :: d2 :: d3 :: post)), pre.length⟩
        = .error ⟨"\\u must be followed by 4 hex digits",
            ((pre.length + 1 + (renderStr items).length + 6 : Nat) : Int)⟩) ∧
    (∀ pre : List Char,
      advancePastString ⟨pre ++ '"' :: renderStr items, pre.length⟩
        = .error ⟨"Unterminated string",
            ((pre.length + 1 + (renderStr items).length : Nat) : Int)⟩) := by
  refine ⟨?_, ?_, ?_, ?_⟩
  · intro pre post
    rw [advancePastString_open hv pre ('"' :: post)]
    have hd : (pre ++ '"' :: (renderStr items ++ ('"' :: post))).drop pre.length
        = '"' :: (renderStr items ++ ('"' :: post)) :=
      List.drop_left pre ('"' :: (renderStr items ++ ('"' :: post)))
    have hd2 : (pre ++ '"' :: (renderStr items ++ ('"' :: post))).drop (pre.length + 1)
        = renderStr items ++ ('"' :: post) := drop_shift (a := ['"']) (by simpa using hd)
    have hd3 : (pre ++ '"' :: (renderStr items ++ ('"' :: post))).drop
        (pre.length + 1 + (renderStr items).length) = '"' :: post := drop_shift hd2
    exact advancePastStringBody_close hd3
  · intro pre b post hb hu
    rw [advancePastString_open hv pre ('\\' :: b :: post)]
    have hd : (pre ++ '"' :: (renderStr items ++ ('\\' :: b :: post))).drop pre.length
        = '"' :: (renderStr items ++ ('\\' :: b :: post)) :=
      List.drop_left pre ('"' :: (renderStr items ++ ('\\' :: b :: post)))
    have hd2 : (pre ++ '"' :: (renderStr items
        ++ ('\\' :: b :: post))).drop (pre.length + 1)
        = renderStr items ++ ('\\' :: b :: post) :=
      drop_shift (a := ['"']) (by simpa using hd)
    have hd3 : (pre ++ '"' :: (renderStr items ++ ('\\' :: b :: post))).drop
        (pre.length + 1 + (renderStr items).length) = '\\' :: (b :: post) :=
      drop_shift hd2
    exact advancePastStringBody_badEscape hd3 hb hu
  · intro pre d0 d1 d2 d3 post hb
    rw [advancePastString_open hv pre ('\\' :: 'u' :: d0 :: d1 :: d2 :: d3 :: post)]
    have hd : (pre ++ '"' :: (renderStr items
        ++ ('\\' :: 'u' :: d0 :: d1 :: d2 :: d3 :: post))).drop pre.length
        = '"' :: (renderStr items ++ ('\\' :: 'u' :: d0 :: d1 :: d2 :: d3 :: post)) :=
      List.drop_left pre _
    have hd2 : (pre ++ '"' :: (renderStr items
        ++ ('\\' :: 'u' :: d0 :: d1 :: d2 :: d3 :: post))).drop (pre.length + 1)
        = renderStr items ++ ('\\' :: 'u' :: d0 :: d1 :: d2 :: d3 :: post) :=
      drop_shift (a := ['"']) (by simpa using hd)
    have hd3 : (pre ++ '"' :: (renderStr items
        ++ ('\\' :: 'u' :: d0 :: d1 :: d2 :: d3 :: post))).drop
        (pre.length + 1 + (renderStr items).length)
        = '\\' :: ('u' :: (d0 :: d1 :: d2 :: d3 :: post)) := drop_shift hd2
    exact advancePastStringBody_badHex hd3 hb
  · intro pre
    rw [show pre ++ '"' :: renderStr items
        = pre ++ '"' :: (renderStr items ++ ([] : List Char)) from by simp]
    rw [advancePastString_open hv pre []]
    have hd : (pre ++ '"' :: (renderStr items ++ ([] : List Char))).drop pre.length
        = '"' :: (renderStr items ++ ([] : List Char)) := List.drop_left pre _
    have hd2 : (pre ++ '"' :: (renderStr items
        ++ ([] : List Char))).drop (pre.length + 1)
        = renderStr items ++ ([] : List Char) := drop_shift (a := ['"']) (by simpa using hd)
    have hd3 : (pre ++ '"' :: (renderStr items ++ ([] : List Char))).drop
        (pre.length + 1 + (renderStr items).length) = [] := drop_shift hd2
    exact advancePastStringBody_eoi hd3

theorem C8_advance_past_string_witness :
    advancePastString ⟨'"' :: (renderStr strItemsW ++ ['"']), 0⟩
      = .ok ⟨'"' :: (renderStr strItemsW ++ ['"']), 11⟩ ∧
    advancePastString ⟨'"' :: (renderStr strItemsW ++ ['\\', 'q']), 0⟩
      = .error ⟨"Invalid escape character", (11 : Int)⟩ ∧
    advancePastString ⟨'"' :: (renderStr strItemsW ++ ['\\', 'u', 'x', '0', '0', '0']), 0⟩
      = .error ⟨"\\u must be followed by 4 hex digits", (16 : Int)⟩ ∧
    advancePastString ⟨'"' :: renderStr strItemsW, 0⟩
      = .error ⟨"Unterminated string", (10 : Int)⟩ := by
  obtain ⟨h1, h2, h3, h4⟩ := C8_advance_past_string_spec strItemsW (by decide)
  exact ⟨h1 [] [], h2 [] 'q' [] (by decide) (by decide),
    h3 [] 'x' '0' '0' '0' [] (by decide), h4 []⟩

/-- C2: for a built object codec on a well-formed JSON object,
`object_t::decode` succeeds iff every required key appears at least
once among the object's keys (duplicates count once, the comparison
being key membership); when some required key is missing it fails with
"Missing required field(s)" positioned after the closing brace. -/
theorem C2_required_coverage {T : Type} (t0 : T) (regs : List (Reg T))
    (hnd : (regs.map (fun q => q.name)).Nodup) (fuel : Nat) (ps : List (PairItem T))
    (hgood : ∀ p ∈ ps, GoodPair (buildObj t0 regs) fuel p)
    (w0 : List Char) (hw0 : ∀ x ∈ w0, isWsChar x)
    (inp : List Char) (pos : Nat) (r : List Char)
    (h : inp.drop pos = objBytes w0 ps ++ r) (hfuel : ps.length ≤ fuel) :
    ((∃ out c1, objectDecodeF (buildObj t0 regs) fuel ⟨inp, pos⟩
        = some (.ok (out, c1)))
      ↔ ∀ q ∈ regs, q.required = true → q.name ∈ ps.map (fun p => p.key)) ∧
    ((∃ q ∈ regs, q.required = true ∧ q.name ∉ ps.map (fun p => p.key)) →
      objectDecodeF (buildObj t0 regs) fuel ⟨inp, pos⟩
        = some (.error ⟨"Missing required field(s)",
            ((pos + (objBytes w0 ps).length : Nat) : Int)⟩)) := by
  have hrender := objectDecodeF_render hgood hw0 h hfuel
  have hstats := (foldPairs_stats (buildObj t0 regs) ps
    (buildObj t0 regs).construct 0 0 ∅ (fun i => by simp [Nat.zero_testBit]) (by simp)).2
  have hnum : (buildObj t0 regs).numRequired = countReq regs := by
    have hh := foldl_applyReg_numRequired (emptyObj t0) regs (fun q hq => rfl) hnd
    simpa [buildObj, emptyObj] using hh
  have hcard := pairIdxSet_buildObj_card t0 regs hnd ps
  have hcond : ((foldPairs (buildObj t0 regs) ps
      ((buildObj t0 regs).construct, 0, 0)).2.2 = (buildObj t0 regs).numRequired)
      ↔ ∀ q ∈ regs, q.required = true → q.name ∈ ps.map (fun p => p.key) := by
    rw [hstats, Finset.empty_union, hcard, hnum]
    exact reqIdxList_length_eq_iff regs (ps.map (fun p => p.key)) 0
  constructor
  · constructor
    · rintro ⟨out, c1, hok⟩
      rw [hrender] at hok
      by_cases hc : (foldPairs (buildObj t0 regs) ps
          ((buildObj t0 regs).construct, 0, 0)).2.2 = (buildObj t0 regs).numRequired
      · exact hcond.mp hc
      · rw [if_neg hc] at hok
        exact absurd hok (by simp)
    · intro hcov
      refine ⟨(foldPairs (buildObj t0 regs) ps
          ((buildObj t0 regs).construct, 0, 0)).1,
        ⟨inp, pos + (objBytes w0 ps).length⟩, ?_⟩
      rw [hrender, if_pos (hcond.mpr hcov)]
  · rintro ⟨q, hq, hreq, hnot⟩
    have hnc : ¬ ((foldPairs (buildObj t0 regs) ps
        ((buildObj t0 regs).construct, 0, 0)).2.2 = (buildObj t0 regs).numRequired) :=
      fun hc => hnot (hcond.mp hc q hq hreq)
    rw [hrender, if_neg hnc]

theorem C2_required_coverage_witness :
    ∃ out c1, objectDecodeF objA 1 ⟨objBytes [] [pairA true], 0⟩
      = some (.ok (out, c1)) := by
  refine (C2_required_coverage false [regA] (by simp) 1 [pairA true] ?_ [] (by simp)
    (objBytes [] [pairA true]) 0 [] (by simp) (by simp)).1.mpr ?_
  · intro p hp
    rw [List.mem_singleton] at hp
    subst hp
    exact goodPair_pairA true 1
  · intro q hq hqr
    rw [List.mem_singleton] at hq
    subst hq
    show regA.name ∈ [pairA true].map (fun p => p.key)
    simp [regA, pairA]

/-- C5: duplicate keys are permitted; each occurrence of a registered
key overwrites the record's field, so the decoded record holds the
value from the last occurrence; and the required-field count is the
cardinality of the set of seen required indices, so a duplicated
required key satisfies the requiredness check exactly once. -/
theorem C5_duplicate_keys_last_wins {T U : Type} (o : ObjectT T) (fuel : Nat)
    (ps : List (PairItem T)) (hgood : ∀ p ∈ ps, GoodPair o fuel p)
    (w0 : List Char) (hw0 : ∀ x ∈ w0, isWsChar x) (inp : List Char) (pos : Nat)
    (r : List Char) (h : inp.drop pos = objBytes w0 ps ++ r) (hfuel : ps.length ≤ fuel)
    (get : T → U) (vs : List U) (hw : Writes o get ps vs) :
    ((pairIdxSet o ps).card = o.numRequired →
      objectDecodeF o fuel ⟨inp, pos⟩
        = some (.ok (ps.foldl (fun t p => outStep o p.key p.g t) o.construct,
            ⟨inp, pos + (objBytes w0 ps).length⟩))) ∧
    (∀ (out : T) (c1 : DecCtx),
      objectDecodeF o fuel ⟨inp, pos⟩ = some (.ok (out, c1)) →
      get out = vs.getLast?.getD (get o.construct)) ∧
    (foldPairs o ps (o.construct, 0, 0)).2.2 = (pairIdxSet o ps).card := by
  have hrender := objectDecodeF_render hgood hw0 h hfuel
  have huniq : (foldPairs o ps (o.construct, 0, 0)).2.2 = (pairIdxSet o ps).card := by
    rw [(foldPairs_stats o ps o.construct 0 0 ∅
      (fun i => by simp [Nat.zero_testBit]) (by simp)).2, Finset.empty_union]
  refine ⟨?_, ?_, huniq⟩
  · intro hc
    rw [hrender, if_pos (by rw [huniq]; exact hc), foldPairs_fst]
  · intro out c1 hok
    rw [hrender] at hok
    by_cases hc : (foldPairs o ps (o.construct, 0, 0)).2.2 = o.numRequired
    · rw [if_pos hc] at hok
      have hout : (foldPairs o ps (o.construct, 0, 0)).1 = out := by
        injection hok with h2
        injection h2 with h3
        exact congrArg Prod.fst h3
      rw [← hout, foldPairs_fst]
      exact writes_fold_get hw o.construct
    · rw [if_neg hc] at hok
      exact absurd hok (by simp)

theorem C5_duplicate_keys_witness :
    objectDecodeF objA 2 ⟨objBytes [] [pairA true, pairA false], 0⟩
      = some (.ok (false, ⟨objBytes [] [pairA true, pairA false],
          0 + (objBytes [] [pairA true, pairA false]).length⟩)) := by
  have hps : ∀ p ∈ [pairA true, pairA false], GoodPair objA 2 p := by
    intro p hp
    rcases List.mem_cons.mp hp with rfl | hp2
    · exact goodPair_pairA true 2
    · rw [List.mem_singleton] at hp2
      subst hp2
      exact goodPair_pairA false 2
  have hwr : Writes objA (fun t => t) [pairA true, pairA false] [true, false] :=
    Writes.put (fun t => rfl) (Writes.put (fun t => rfl) Writes.nil)
  obtain ⟨h1, h2, h3⟩ := C5_duplicate_keys_last_wins objA 2 [pairA true, pairA false]
    hps [] (by simp) (objBytes [] [pairA true, pairA false]) 0 [] (by simp) (by simp)
    (fun t => t) [true, false] hwr
  have hdec := h1 (by decide)
  have hval := h2 _ _ hdec
  have hv2 : [pairA true, pairA false].foldl
      (fun t p => outStep objA p.key p.g t) objA.construct = false := by
    simpa using hval
  rw [hdec, hv2]

/-- C4: inserting a key/value pair whose key is unknown to the schema,
at any position of the object, does not change the decoded outcome:
the pair's value is discarded by `skip_value` and nothing is written
to the record. -/
theorem C4_unknown_field_transparency {T : Type} (o : ObjectT T) (fuel : Nat)
    (ps : List (PairItem T)) (hgood : ∀ p ∈ ps, GoodPair o fuel p)
    (q : PairItem T) (hq : GoodPair o fuel q) (hunk : findField o.fields q.key = none)
    (i : Nat) (hi : i ≤ ps.length) (w0 : List Char) (hw0 : ∀ x ∈ w0, isWsChar x)
    (inp : List Char) (pos : Nat) (r : List Char)
    (h : inp.drop pos = objBytes w0 ps ++ r)
    (inp2 : List Char) (pos2 : Nat) (r2 : List Char)
    (h2 : inp2.drop pos2 = objBytes w0 (ps.insertIdx i q) ++ r2)
    (hfuel : ps.length + 1 ≤ fuel) :
    resultView (objectDecodeF o fuel ⟨inp2, pos2⟩)
      = resultView (objectDecodeF o fuel ⟨inp, pos⟩) := by
  have hgood2 : ∀ p ∈ ps.insertIdx i q, GoodPair o fuel p := by
    intro p hp
    rcases (List.mem_insertIdx hi).mp hp with rfl | hp2
    · exact hq
    · exact hgood p hp2
  have hlen2 : (ps.insertIdx i q).length = ps.length + 1 := by
    rw [List.length_insertIdx]
    simp [hi]
  have hr1 := objectDecodeF_render hgood hw0 h (by omega)
  have hr2 := objectDecodeF_render hgood2 hw0 h2 (by omega)
  have hid : ∀ s : ObjState T, pairStep o q.key q.g s = s := by
    intro s
    obtain ⟨out, bs, u⟩ := s
    simp [pairStep, hunk]
  have hfold : foldPairs o (ps.insertIdx i q) (o.construct, 0, 0)
      = foldPairs o ps (o.construct, 0, 0) :=
    foldPairs_insertIdx_id o q hid ps i (o.construct, 0, 0) hi
  rw [hr1, hr2, hfold]
  by_cases hc : (foldPairs o ps (o.construct, 0, 0)).2.2 = o.numRequired
  · rw [if_pos hc, if_pos hc]
    rfl
  · rw [if_neg hc, if_neg hc]
    rfl

theorem C4_unknown_field_witness :
    resultView (objectDecodeF objA 2
        ⟨objBytes [] (List.insertIdx 0 pairUnk [pairA true]), 0⟩)
      = resultView (objectDecodeF objA 2 ⟨objBytes [] [pairA true], 0⟩) := by
  refine C4_unknown_field_transparency objA 2 [pairA true] ?_ pairUnk
    (goodPair_pairUnk (by decide)) rfl 0 (by decide) [] (by simp)
    (objBytes [] [pairA true]) 0 [] (by simp)
    (objBytes [] (List.insertIdx 0 pairUnk [pairA true])) 0 [] (by simp) (by decide)
  intro p hp
  rw [List.mem_singleton] at hp
  subst hp
  exact goodPair_pairA true 2

/-- C1 (amended): the round trip holds for an object codec of member
fields whose child codecs emit and are willing to emit their values
(`should_encode` true) and decode their own encodings back; encoding
then decoding returns exactly the record rebuilt from the registered
fields of `v`. The unqualified claim is false: a required field whose
child `should_encode` is false is skipped by `encode`, and the output
no longer decodes. -/
theorem C1_roundtrip_amended {T : Type} (t0 : T) (ms : List (MReg T)) (v : T)
    (hnd : (ms.map (fun m => m.name)).Nodup)
    (hse : ∀ m ∈ ms, m.codec.shouldEncode (m.get v) = true)
    (henc : ∀ m ∈ ms, ∀ buf, m.codec.encode buf (m.get v) = .ok (buf ++ m.enc (m.get v)))
    (hdec : ∀ m ∈ ms, DecConsumes m.codec.decode (m.enc (m.get v)) (m.get v))
    (hvb : ∀ m ∈ ms, ∃ h t, m.enc (m.get v) = h :: t ∧ ¬ (isWsChar h = true))
    (hrec : ms.foldl (fun t m => m.set t (m.get v)) t0 = v)
    (fuel : Nat) (hfuel : ms.length ≤ fuel) :
    ∃ bytes, objectEncode (buildObj t0 (ms.map MReg.toReg)) [] v = .ok bytes ∧
      objectDecodeF (buildObj t0 (ms.map MReg.toReg)) fuel ⟨bytes, 0⟩
        = some (.ok (v, ⟨bytes, bytes.length⟩)) := by
  have hndr : ((ms.map MReg.toReg).map (fun q => q.name)).Nodup := by
    rw [mreg_names_map]
    exact hnd
  have hfl : (buildObj t0 (ms.map MReg.toReg)).fieldList
      = specList (ms.map MReg.toReg) 0 := by
    have hh := foldl_applyReg_fieldList (emptyObj t0) (ms.map MReg.toReg)
      (fun q hq => rfl) hndr
    simpa [buildObj, emptyObj] using hh
  have hem : EmitsList v (buildObj t0 (ms.map MReg.toReg)).fieldList
      (ms.map (fun m => (escapeKey m.name).data ++ m.enc (m.get v))) := by
    rw [hfl]
    exact emitsList_mreg v ms hse henc 0
  have hencode := objectEncode_emits hem []
  refine ⟨'{' :: (joinComma (ms.map (fun m => (escapeKey m.name).data
      ++ m.enc (m.get v))) ++ ['}']), by simpa using hencode, ?_⟩
  have hws : ∀ p ∈ ms.map (fun m => MReg.pairOf m v), p.wsA = [] ∧ p.wsB = [] := by
    intro p hp
    obtain ⟨m, hm, rfl⟩ := List.mem_map.mp hp
    exact ⟨rfl, rfl⟩
  have hbytes : objBytes [] (ms.map (fun m => MReg.pairOf m v))
      = '{' :: (joinComma (ms.map (fun m => (escapeKey m.name).data
          ++ m.enc (m.get v))) ++ ['}']) := by
    rw [objBytes_joinComma hws, mreg_chunks_eq]
  have hgood : ∀ p ∈ ms.map (fun m => MReg.pairOf m v),
      GoodPair (buildObj t0 (ms.map MReg.toReg)) fuel p := by
    intro p hp
    obtain ⟨m, hm, rfl⟩ := List.mem_map.mp hp
    exact goodPair_mreg t0 hnd v hm (hdec m hm) (hvb m hm) fuel
  have hdrop : ('{' :: (joinComma (ms.map (fun m => (escapeKey m.name).data
      ++ m.enc (m.get v))) ++ ['}'])).drop 0
      = objBytes [] (ms.map (fun m => MReg.pairOf m v)) ++ [] := by
    rw [hbytes]
    simp
  have hlenps : (ms.map (fun m => MReg.pairOf m v)).length ≤ fuel := by
    rw [List.length_map]
    exact hfuel
  have hrender := objectDecodeF_render hgood
    (show ∀ x ∈ ([] : List Char), isWsChar x from by simp) hdrop hlenps
  have hnum : (buildObj t0 (ms.map MReg.toReg)).numRequired
      = countReq (ms.map MReg.toReg) := by
    have hh := foldl_applyReg_numRequired (emptyObj t0) (ms.map MReg.toReg)
      (fun q hq => rfl) hndr
    simpa [buildObj, emptyObj] using hh
  have hcard := pairIdxSet_buildObj_card t0 (ms.map MReg.toReg) hndr
    (ms.map (fun m => MReg.pairOf m v))
  have hcover : (reqIdxList (ms.map MReg.toReg) 0
      ((ms.map (fun m => MReg.pairOf m v)).map (fun p => p.key))).length
      = countReq (ms.map MReg.toReg) := by
    rw [reqIdxList_length_eq_iff]
    intro q hq _
    obtain ⟨m, hm, rfl⟩ := List.mem_map.mp hq
    rw [mreg_keys_map]
    exact List.mem_map_of_mem (fun x => x.name) hm
  have huniq : (foldPairs (buildObj t0 (ms.map MReg.toReg))
      (ms.map (fun m => MReg.pairOf m v))
      ((buildObj t0 (ms.map MReg.toReg)).construct, 0, 0)).2.2
      = (buildObj t0 (ms.map MReg.toReg)).numRequired := by
    rw [(foldPairs_stats (buildObj t0 (ms.map MReg.toReg))
      (ms.map (fun m => MReg.pairOf m v))
      (buildObj t0 (ms.map MReg.toReg)).construct 0 0 ∅
      (fun i => by simp [Nat.zero_testBit]) (by simp)).2,
      Finset.empty_union, hcard, hcover, hnum]
  have hcon : (buildObj t0 (ms.map MReg.toReg)).construct = t0 := by
    have hh := foldl_applyReg_construct (emptyObj t0) (ms.map MReg.toReg)
    simpa [buildObj, emptyObj] using hh
  have hout : (foldPairs (buildObj t0 (ms.map MReg.toReg))
      (ms.map (fun m => MReg.pairOf m v))
      ((buildObj t0 (ms.map MReg.toReg)).construct, 0, 0)).1 = v := by
    rw [foldPairs_fst, hcon, outFold_mreg t0 hnd v ms (fun x hx => hx) t0]
    exact hrec
  rw [hrender, if_pos huniq, hout, hbytes]
  simp

/-- The member registration of the witness round trip. -/
def mregA : MReg Bool := ⟨Bool, "a", boolCodec, boolBytes, id, boolSet⟩

theorem C1_roundtrip_witness :
    ∃ bytes, objectEncode (buildObj false [MReg.toReg mregA]) [] true = .ok bytes ∧
      objectDecodeF (buildObj false [MReg.toReg mregA]) 1 ⟨bytes, 0⟩
        = some (.ok (true, ⟨bytes, bytes.length⟩)) := by
  refine C1_roundtrip_amended false [mregA] true (by simp) ?_ ?_ ?_ ?_ rfl 1 (by decide)
  · intro m hm
    rw [List.mem_singleton] at hm
    subst hm
    rfl
  · intro m hm
    rw [List.mem_singleton] at hm
    subst hm
    intro buf
    rfl
  · intro m hm
    rw [List.mem_singleton] at hm
    subst hm
    exact boolCodec_decConsumes true
  · intro m hm
    rw [List.mem_singleton] at hm
    subst hm
    exact ⟨'t', ['r', 'u', 'e'], rfl, by decide⟩

theorem C1_roundtrip_counterexample :
    (optionalT boolCodec).shouldEncode none = false ∧
    objectEncode objOptA [] none = .ok ['{', '}'] ∧
    objectDecodeF objOptA 1 ⟨['{', '}'], 0⟩
      = some (.error ⟨"Missing required field(s)", (2 : Int)⟩) :=
  ⟨rfl, rfl, rfl⟩

end SpotifyJson